import Mathlib

/-!
# Verification of the inventory movement-processing engine

Shallow embedding of the balance-reconstruction and outlier-detection core of
the `my_streamlit_app` repository:

* `process_movements`  — from `modules/inventory_logic.py`
* `calculate_outliers_and_mean_without_outliers`, the outlier filter of
  `display_outliers_table` — from `modules/outlier_detection.py`
* the column-validation behaviour of `modules/data_loader.py` and the
  column-level side effects of `process_movements`, modelled at schema level.

Tables are embedded as lists of typed records; dates are `Int` day numbers
(`pd.Timestamp` at daily frequency is an ordered discrete time axis, one unit
per day); numeric cells are exact rationals `ℚ` (pandas floats are used by the
source only for ordinary field arithmetic, which the spec treats as exact).
-/

/-- A row of the stock snapshot table (`inventario.xlsx`), after
`load_inventory_data` has coerced the numeric columns.  Fields mirror the
columns `Item`, `Site`, `CurrentStock`, `LeadTime`, `StockSeguridad`. -/
structure StockRecord where
  item : String
  site : String
  currentStock : ℚ
  leadTime : ℚ
  stockSeguridad : ℚ
deriving DecidableEq, Repr

/-- A row of the movement table (`consumos.xlsx`), after
`load_consumption_data` has coerced `Fecha` and `Movimientos`.
Fields mirror the columns `Item`, `Site`, `Fecha`, `Movimientos`. -/
structure MovementRecord where
  item : String
  site : String
  fecha : Int
  movimientos : ℚ
deriving DecidableEq, Repr

/-- One row of `daily_movements_agg`: the result of
`item_movements.groupby(["Fecha", "Site", "Item"]).agg(sum)` for a fixed item
(the `Item` key is constant inside the per-item loop, so it is kept implicit). -/
structure AggRow where
  fecha : Int
  site : String
  movimientos : ℚ
  entradas : ℚ
  salidas : ℚ
deriving DecidableEq, Repr

/-- A row of `df_item_combined` before the `Saldo` column is filled:
the left-merge of the per-day skeleton with `daily_movements_agg`. -/
structure CRow where
  item : String
  fecha : Int
  site : String
  movimientos : ℚ
  entradas : ℚ
  salidas : ℚ
deriving DecidableEq, Repr

/-- A row of the final `df_processed` frame returned by `process_movements`
(columns `Item`, `Fecha`, `Site`, `Movimientos`, `Entradas`, `Salidas`,
`Saldo`). -/
structure Row where
  item : String
  fecha : Int
  site : String
  movimientos : ℚ
  entradas : ℚ
  salidas : ℚ
  saldo : ℚ
deriving DecidableEq, Repr

/-- `df_movimientos["Movimientos"].apply(lambda x: x if x > 0 else 0)`. -/
def entradasOf (x : ℚ) : ℚ := if x > 0 then x else 0

/-- `df_movimientos["Movimientos"].apply(lambda x: x if x < 0 else 0)`. -/
def salidasOf (x : ℚ) : ℚ := if x < 0 then x else 0

/-- `df_inventario["InitialBalance"] = CurrentStock + StockSeguridad`. -/
def initialBalance (s : StockRecord) : ℚ := s.currentStock + s.stockSeguridad

/-- Dictionary lookup on the stock snapshot keyed by `Item`
(`df_inventario.set_index("Item")`); the snapshot is guaranteed unique at the
point of use by the duplicate check, so the first match is the match. -/
def lookupStock (inv : List StockRecord) (it : String) : Option StockRecord :=
  inv.find? (fun s => s.item == it)

/-- `initial_balance_map.get(item, 0)`. -/
def initialBalOf (inv : List StockRecord) (it : String) : ℚ :=
  match lookupStock inv it with
  | some s => initialBalance s
  | none => 0

/-- `item_site_map.get(item, "N/A")`. -/
def defaultSiteOf (inv : List StockRecord) (it : String) : String :=
  match lookupStock inv it with
  | some s => s.site
  | none => "N/A"

/-- `item_movements = df_movimientos[df_movimientos["Item"] == item]`. -/
def itemMovements (mov : List MovementRecord) (it : String) : List MovementRecord :=
  mov.filter (fun m => m.item == it)

/-- `series.max()` on a list of dates: `none` on an empty column. -/
def maxFecha : List Int → Option Int
  | [] => none
  | f :: l =>
    match maxFecha l with
    | none => some f
    | some m => some (max f m)

/-- `end_date_for_item`: the maximum movement date of the item, or the
initial-balance date when the item has no movements. -/
def endDateFor (d0 : Int) (ms : List MovementRecord) : Int :=
  match maxFecha (ms.map (fun m => m.fecha)) with
  | some m => m
  | none => d0

/-- `n` consecutive days starting at `s`. -/
def dateRangeGo (s : Int) : Nat → List Int
  | 0 => []
  | n + 1 => s :: dateRangeGo (s + 1) n

/-- `pd.date_range(start, end, freq="D")`: every calendar day from `s` to `e`
inclusive; empty when `e < s`. -/
def date_range (s e : Int) : List Int :=
  dateRangeGo s (e + 1 - s).toNat

/-- First-occurrence deduplication, as `pandas.Series.unique` /
`pandas.Series.nunique` enumerate distinct values. -/
def uniqueFirstAux {α : Type} [DecidableEq α] (seen : List α) : List α → List α
  | [] => []
  | a :: l => if a ∈ seen then uniqueFirstAux seen l else a :: uniqueFirstAux (a :: seen) l

/-- `pandas.Series.unique` (first-occurrence order). -/
def uniqueFirst {α : Type} [DecidableEq α] (l : List α) : List α :=
  uniqueFirstAux [] l

/-- Strict lexicographic comparison of character lists by code point, the
order pandas uses when sorting string keys. -/
def charListLt : List Char → List Char → Bool
  | _, [] => false
  | [], _ :: _ => true
  | a :: as, b :: bs => if a < b then true else if b < a then false else charListLt as bs

/-- Strict lexicographic order on strings (by code point). -/
def strLt (a b : String) : Bool := charListLt a.data b.data

/-- Reflexive lexicographic order on strings (by code point). -/
def strLe (a b : String) : Bool := !(charListLt b.data a.data)

/-- Group-key order used by `groupby(["Fecha", "Site", "Item"], sort=True)`
(with the constant `Item` key dropped): lexicographic on (date, site). -/
def keyLe (a b : Int × String) : Prop :=
  a.1 < b.1 ∨ (a.1 = b.1 ∧ strLe a.2 b.2 = true)

instance : DecidableRel keyLe := fun a b => by
  unfold keyLe
  infer_instance

/-- The sorted list of distinct `(Fecha, Site)` group keys of the item's
movements, i.e. the index of `daily_movements_agg`. -/
def aggKeys (ms : List MovementRecord) : List (Int × String) :=
  List.insertionSort keyLe (uniqueFirst (ms.map (fun m => (m.fecha, m.site))))

/-- The aggregated row for one `(Fecha, Site)` group:
`agg(Movimientos=sum, Entradas=sum, Salidas=sum)`. -/
def aggFor (ms : List MovementRecord) (k : Int × String) : AggRow :=
  let g := ms.filter (fun m => m.fecha == k.1 && m.site == k.2)
  { fecha := k.1
    site := k.2
    movimientos := (g.map (fun m => m.movimientos)).sum
    entradas := (g.map (fun m => entradasOf m.movimientos)).sum
    salidas := (g.map (fun m => salidasOf m.movimientos)).sum }

/-- `daily_movements_agg` for one item. -/
def dailyAgg (ms : List MovementRecord) : List AggRow :=
  (aggKeys ms).map (aggFor ms)

/-- The merged rows contributed by one calendar day `d`: the left merge of the
one-day skeleton row with `daily_movements_agg` on `["Fecha", "Item"]`,
followed by `fillna(0)` on the numeric columns and
`Site.fillna(default_site)`.  A day with no matching aggregate rows yields the
single zero-filled skeleton row; a day with matches yields one row per
matching aggregate row (this is where a multi-site day fans out). -/
def mergeGroup (it : String) (agg : List AggRow) (dSite : String) (d : Int) : List CRow :=
  let hits := agg.filter (fun a => a.fecha == d)
  if hits.isEmpty then
    [{ item := it, fecha := d, site := dSite, movimientos := 0, entradas := 0, salidas := 0 }]
  else
    hits.map (fun a =>
      { item := it, fecha := d, site := a.site, movimientos := a.movimientos,
        entradas := a.entradas, salidas := a.salidas })

/-- `df_item_combined` (without `Saldo`), already in `Fecha` order: the merge
preserves the left frame's date order, and `sort_values(by="Fecha")` keeps it. -/
def mergeDaily (it : String) (range : List Int) (agg : List AggRow) (dSite : String) :
    List CRow :=
  range.flatMap (mergeGroup it agg dSite)

/-- `DailyTotalMovimientosForSaldo`: `groupby("Fecha")["Movimientos"].transform("sum")`
evaluated at date `d`, over the combined per-item frame. -/
def dailyTotal (crows : List CRow) (d : Int) : ℚ :=
  ((crows.filter (fun r => r.fecha == d)).map (fun r => r.movimientos)).sum

/-- The forward loop
`for i in range(k+1, n): temp[i] = temp[i-1] + daily_total[i]`,
given `temp[k] = b` and the daily totals of the rows after `k`. -/
def cumFrom (b : ℚ) : List ℚ → List ℚ
  | [] => []
  | d :: ds => (b + d) :: cumFrom (b + d) ds

/-- The backward loop
`for i in range(k-1, -1, -1): temp[i] = temp[i+1] - daily_total[i+1]`,
given `temp[k] = b` and the daily totals at indices `1..k`; at position `i` it
has subtracted the totals at indices `i+1..k` from `b`. -/
def backFill (b : ℚ) : List ℚ → List ℚ
  | [] => []
  | d :: ds => (b - (d + ds.sum)) :: backFill b ds

/-- The `Saldo` column of `df_item_combined`: anchor `initial_bal` at the
first row dated `initial_balance_date`, fill forward and backward from there;
when no row carries the anchor date, `Saldo = initial_bal + cumsum(daily_total)`. -/
def saldoList (initBal : ℚ) (d0 : Int) (crows : List CRow) : List ℚ :=
  let dts := crows.map (fun r => dailyTotal crows r.fecha)
  match crows.findIdx? (fun r => r.fecha == d0) with
  | some k => backFill initBal ((dts.drop 1).take k) ++ initBal :: cumFrom initBal (dts.drop (k + 1))
  | none => cumFrom initBal dts

/-- `end_date_for_item` for one item of the movement log. -/
def itemEndDate (mov : List MovementRecord) (d0 : Int) (it : String) : Int :=
  endDateFor d0 (itemMovements mov it)

/-- `full_date_range` for one item: `initial_balance_date` through the item's
last movement date. -/
def itemRange (mov : List MovementRecord) (d0 : Int) (it : String) : List Int :=
  date_range d0 (itemEndDate mov d0 it)

/-- `df_item_combined` (before `Saldo`) for one item. -/
def itemCrows (inv : List StockRecord) (mov : List MovementRecord) (d0 : Int)
    (it : String) : List CRow :=
  mergeDaily it (itemRange mov d0 it) (dailyAgg (itemMovements mov it))
    (defaultSiteOf inv it)

/-- Pairing one combined row with its computed `Saldo` cell. -/
def mkRow (c : CRow) (s : ℚ) : Row :=
  { item := c.item, fecha := c.fecha, site := c.site, movimientos := c.movimientos,
    entradas := c.entradas, salidas := c.salidas, saldo := s }

/-- The body of the per-item loop of `process_movements`: build the full date
range, merge the day-level aggregates onto it, and attach the `Saldo` column. -/
def process_item (inv : List StockRecord) (mov : List MovementRecord) (d0 : Int)
    (it : String) : List Row :=
  List.zipWith mkRow (itemCrows inv mov d0 it)
    (saldoList (initialBalOf inv it) d0 (itemCrows inv mov d0 it))

/-- `all_items`: distinct items of the stock snapshot followed by distinct
items of the movement log, first-occurrence order, empty ids filtered out. -/
def all_items (inv : List StockRecord) (mov : List MovementRecord) : List String :=
  (uniqueFirst (inv.map (fun s => s.item) ++ mov.map (fun m => m.item))).filter
    (fun s => s ≠ "")

/-- Output order of `df_processed.sort_values(by=["Item", "Fecha"])`. -/
def rowLe (a b : Row) : Prop :=
  strLt a.item b.item = true ∨ (a.item = b.item ∧ a.fecha ≤ b.fecha)

instance : DecidableRel rowLe := fun a b => by
  unfold rowLe
  infer_instance

/-- Error message raised on duplicate items in the stock snapshot. -/
def dupItemsMsg : String :=
  "Items duplicados encontrados en df_inventario. No se puede crear un indice unico."

/-- `process_movements(df_inventario, df_movimientos, df_caracteristicas,
initial_balance_date)` from `modules/inventory_logic.py`.

The characteristics frame is accepted and ignored by the source's balance
math, so it is omitted here.  The duplicate-item check
(`df_inventario.duplicated(subset=["Item"], keep=False)`) raises before any
row is produced; otherwise every item of `all_items` is processed by the
per-item loop and the concatenated result is sorted by `(Item, Fecha)`. -/
def process_movements (inv : List StockRecord) (mov : List MovementRecord) (d0 : Int) :
    Except String (List Row) :=
  if (inv.map (fun s => s.item)).Nodup then
    Except.ok
      (List.insertionSort rowLe ((all_items inv mov).flatMap (process_item inv mov d0)))
  else
    Except.error dupItemsMsg

/-- Net movement of one item on one calendar day: the sum of the `Movimientos`
of all that item's movement records dated `d` (across all sites). -/
def dayNet (mov : List MovementRecord) (it : String) (d : Int) : ℚ :=
  (((itemMovements mov it).filter (fun m => m.fecha == d)).map
    (fun m => m.movimientos)).sum

/-- `Series.quantile(q)` with the default `interpolation="linear"`: sort the
values, take position `p = q * (n - 1)`, and linearly interpolate between the
two closest ranks. -/
def quantileLinear (l : List ℚ) (q : ℚ) : ℚ :=
  match List.insertionSort (fun a b : ℚ => a ≤ b) l with
  | [] => 0
  | a :: t =>
    let s := a :: t
    let p : ℚ := q * ((s.length : ℚ) - 1)
    let i : Int := ⌊p⌋
    let lo := s.getD i.toNat 0
    let hi := s.getD (i.toNat + 1) lo
    lo + (p - (i : ℚ)) * (hi - lo)

/-- `Series.nunique()`. -/
def nunique (l : List ℚ) : Nat := (uniqueFirst l).length

/-- `Series.max()` of a nonempty column (`0` is never hit at the call site:
the source only calls it on a nonempty series). -/
def maxQ : List ℚ → ℚ
  | [] => 0
  | a :: t => t.foldl max a

/-- `Series.mean()` of a nonempty column. -/
def meanQ (l : List ℚ) : ℚ := l.sum / (l.length : ℚ)

/-- `calculate_outliers_and_mean_without_outliers(df_display_filtered_by_date)`
from `modules/outlier_detection.py`: select the outflow rows
(`Movimientos < 0`); with at least two distinct absolute values compute the
IQR upper bound `Q3 + 1.5 * IQR` and the mean of the values not above it;
with a single distinct value return `(max, mean)`; with no outflow rows
return `(0, 0)`. -/
def calculate_outliers_and_mean_without_outliers (rows : List Row) :
    ℚ × ℚ × List Row :=
  let salidas := rows.filter (fun r => r.movimientos < 0)
  if salidas.isEmpty then (0, 0, salidas)
  else
    let vals := salidas.map (fun r => |r.movimientos|)
    if 1 < nunique vals then
      let q1 := quantileLinear vals (1 / 4)
      let q3 := quantileLinear vals (3 / 4)
      let ub := q3 + (3 / 2) * (q3 - q1)
      let nonOutlier := vals.filter (fun x => x ≤ ub)
      let m := if nonOutlier.isEmpty then 0 else meanQ nonOutlier
      (ub, m, salidas)
    else
      (maxQ vals, meanQ vals, salidas)

/-- The rows reported as outliers by `display_outliers_table`: outflow rows
whose absolute `Movimientos` strictly exceeds the upper bound. -/
def reportedOutliers (salidas : List Row) (ub : ℚ) : List Row :=
  salidas.filter (fun r => |r.movimientos| > ub)

/-- Required columns of `inventario.xlsx` (`load_inventory_data`). -/
def inventoryExpectedCols : List String :=
  ["Item", "CurrentStock", "LeadTime", "StockSeguridad", "Site"]

/-- Required columns of `consumos.xlsx` (`load_consumption_data`). -/
def consumptionExpectedCols : List String :=
  ["Item", "Site", "Fecha", "Movimientos"]

/-- Required columns of `caracteristicas.xlsx` (`load_characteristics_data`). -/
def characteristicsExpectedCols : List String :=
  ["Item", "Site", "Descripcion", "ADI", "CV", "Metodo", "ABC Class"]

/-- The column validation of the three loaders in `modules/data_loader.py`:
`missing_cols = [col for col in expected_cols if col not in found_cols]`,
raising a `ValueError` whose message carries the file name and the missing
column names when any expected column is absent. -/
def checkExpectedCols (fileName : String) (expected cols : List String) :
    Except (String × List String) Unit :=
  let missing := expected.filter (fun c => c ∉ cols)
  if missing.isEmpty then Except.ok () else Except.error (fileName, missing)

/-- The Python exceptions that `process_movements` can raise while touching
input columns: the two explicit `ValueError`s for a missing `Item` column
(whose messages name the offending frame and file), and the bare pandas
`KeyError(col)` raised by reading an absent column, which names only the
column. -/
inductive ReconError where
  | missingItemInventario
  | missingItemMovimientos
  | keyError (col : String)
deriving DecidableEq, Repr

/-- Whether the raised error message identifies which input table is at
fault: the explicit `ValueError`s do ("df_inventario"/"inventario.xlsx",
"df_movimientos"/"consumos.xlsx"); a bare `KeyError(col)` does not. -/
def errorNamesTable : ReconError → Bool
  | ReconError.missingItemInventario => true
  | ReconError.missingItemMovimientos => true
  | ReconError.keyError _ => false

/-- Column-level trace of `process_movements`: the first error raised when
required columns are absent, following the source's access order — the two
explicit `Item` checks, then `CurrentStock` and `StockSeguridad` coercion on
the stock frame, then the `Fecha` conversion and the `Movimientos` reads on
the movement frame.  (The duplicate-item check sits between the
`StockSeguridad` and `Fecha` accesses and is value-level, not column-level.) -/
def pmColumnError (invCols movCols : List String) : Option ReconError :=
  if "Item" ∉ invCols then some ReconError.missingItemInventario
  else if "Item" ∉ movCols then some ReconError.missingItemMovimientos
  else if "CurrentStock" ∉ invCols then some (ReconError.keyError "CurrentStock")
  else if "StockSeguridad" ∉ invCols then some (ReconError.keyError "StockSeguridad")
  else if "Fecha" ∉ movCols then some (ReconError.keyError "Fecha")
  else if "Movimientos" ∉ movCols then some (ReconError.keyError "Movimientos")
  else none

/-- Column-level effect of `process_movements` on `df_inventario`, which is
mutated in place: a `Site` column is added when absent (line
`df_inventario["Site"] = "N/A_Inventario"`), and an `InitialBalance` column is
added (line `df_inventario["InitialBalance"] = ...`); pandas appends new
columns at the end. -/
def invColsAfter (cols : List String) : List String :=
  let c1 := if "Site" ∈ cols then cols else cols ++ ["Site"]
  if "InitialBalance" ∈ c1 then c1 else c1 ++ ["InitialBalance"]

/-- Column-level effect of `process_movements` on `df_movimientos`, which is
mutated in place: `Entradas` and `Salidas` columns are added. -/
def movColsAfter (cols : List String) : List String :=
  let c1 := if "Entradas" ∈ cols then cols else cols ++ ["Entradas"]
  if "Salidas" ∈ c1 then c1 else c1 ++ ["Salidas"]


/-! ## Date-range lemmas -/

theorem mem_dateRangeGo {d s : Int} {n : Nat} :
    d ∈ dateRangeGo s n ↔ s ≤ d ∧ d < s + n := by
  induction n generalizing s with
  | zero => simp [dateRangeGo]
  | succ n ih =>
    simp only [dateRangeGo, List.mem_cons, ih]
    constructor
    · rintro (rfl | ⟨h1, h2⟩) <;> constructor <;> omega
    · rintro ⟨h1, h2⟩
      by_cases hd : d = s
      · exact Or.inl hd
      · exact Or.inr ⟨by omega, by omega⟩

theorem nodup_dateRangeGo {s : Int} {n : Nat} : (dateRangeGo s n).Nodup := by
  induction n generalizing s with
  | zero => simp [dateRangeGo]
  | succ n ih =>
    refine List.Nodup.cons (fun hmem => ?_) ih
    have := mem_dateRangeGo.mp hmem
    omega

theorem length_dateRangeGo {s : Int} {n : Nat} : (dateRangeGo s n).length = n := by
  induction n generalizing s with
  | zero => rfl
  | succ n ih => simp [dateRangeGo, ih]

theorem getElem_dateRangeGo {s : Int} {n i : Nat} (h : i < (dateRangeGo s n).length) :
    (dateRangeGo s n)[i] = s + i := by
  induction n generalizing s i with
  | zero => simp [dateRangeGo] at h
  | succ n ih =>
    cases i with
    | zero => simp [dateRangeGo]
    | succ i =>
      have h' : i < (dateRangeGo (s + 1) n).length := by
        simpa [dateRangeGo] using h
      simp only [dateRangeGo, List.getElem_cons_succ, ih h']
      omega

theorem mem_date_range {d s e : Int} : d ∈ date_range s e ↔ s ≤ d ∧ d ≤ e := by
  unfold date_range
  rw [mem_dateRangeGo]
  omega

theorem nodup_date_range {s e : Int} : (date_range s e).Nodup := nodup_dateRangeGo

theorem length_date_range {s e : Int} : (date_range s e).length = (e + 1 - s).toNat :=
  length_dateRangeGo

theorem date_range_eq_nil_iff {s e : Int} : date_range s e = [] ↔ e < s := by
  unfold date_range
  constructor
  · intro h
    by_contra hle
    have : s ∈ dateRangeGo s (e + 1 - s).toNat := mem_dateRangeGo.mpr (by omega)
    simp [h] at this
  · intro h
    have : (e + 1 - s).toNat = 0 := by omega
    rw [this]
    rfl

theorem date_range_cons {s e : Int} (h : s ≤ e) :
    date_range s e = s :: date_range (s + 1) e := by
  unfold date_range
  have h1 : (e + 1 - s).toNat = (e + 1 - (s + 1)).toNat + 1 := by omega
  rw [h1]
  rfl

theorem getElem_date_range {s e : Int} {i : Nat} (h : i < (date_range s e).length) :
    (date_range s e)[i] = s + i := getElem_dateRangeGo h

/-! ## `uniqueFirst` lemmas -/

theorem mem_uniqueFirstAux {α : Type} [DecidableEq α] {a : α} {seen l : List α} :
    a ∈ uniqueFirstAux seen l ↔ a ∈ l ∧ a ∉ seen := by
  induction l generalizing seen with
  | nil => simp [uniqueFirstAux]
  | cons b t ih =>
    rw [uniqueFirstAux]
    by_cases hb : b ∈ seen
    · rw [if_pos hb, ih]
      simp only [List.mem_cons]
      constructor
      · tauto
      · rintro ⟨h1 | h1, h2⟩
        · exact absurd (h1 ▸ hb) h2
        · tauto
    · rw [if_neg hb]
      simp only [List.mem_cons, ih, List.mem_cons]
      by_cases hab : a = b
      · subst hab
        tauto
      · tauto

theorem nodup_uniqueFirstAux {α : Type} [DecidableEq α] {seen l : List α} :
    (uniqueFirstAux seen l).Nodup := by
  induction l generalizing seen with
  | nil => simp [uniqueFirstAux]
  | cons b t ih =>
    by_cases hb : b ∈ seen
    · rw [uniqueFirstAux, if_pos hb]
      exact ih
    · rw [uniqueFirstAux, if_neg hb]
      refine List.Nodup.cons (fun hmem => ?_) ih
      have := mem_uniqueFirstAux.mp hmem
      exact this.2 (List.mem_cons_self _ _)

theorem mem_uniqueFirst {α : Type} [DecidableEq α] {a : α} {l : List α} :
    a ∈ uniqueFirst l ↔ a ∈ l := by
  unfold uniqueFirst
  rw [mem_uniqueFirstAux]
  simp

theorem nodup_uniqueFirst {α : Type} [DecidableEq α] {l : List α} :
    (uniqueFirst l).Nodup := nodup_uniqueFirstAux

/-! ## `maxFecha` lemmas -/

theorem maxFecha_eq_none_iff {l : List Int} : maxFecha l = none ↔ l = [] := by
  cases l with
  | nil => simp [maxFecha]
  | cons f t =>
    simp only [maxFecha]
    cases maxFecha t <;> simp

theorem maxFecha_mem {l : List Int} {m : Int} (h : maxFecha l = some m) : m ∈ l := by
  induction l generalizing m with
  | nil => simp [maxFecha] at h
  | cons f t ih =>
    rw [maxFecha] at h
    cases hm : maxFecha t with
    | none =>
      rw [hm] at h
      simp only [Option.some.injEq] at h
      subst h
      exact List.mem_cons_self _ _
    | some mt =>
      rw [hm] at h
      simp only [Option.some.injEq] at h
      subst h
      rcases max_cases f mt with ⟨heq, _⟩ | ⟨heq, _⟩
      · rw [heq]; exact List.mem_cons_self _ _
      · rw [heq]; exact List.mem_cons_of_mem _ (ih hm)

theorem le_maxFecha {l : List Int} {m x : Int} (h : maxFecha l = some m) (hx : x ∈ l) :
    x ≤ m := by
  induction l generalizing m with
  | nil => simp at hx
  | cons f t ih =>
    rw [maxFecha] at h
    rcases List.mem_cons.mp hx with rfl | hx
    · cases hm : maxFecha t with
      | none => rw [hm] at h; simp at h; omega
      | some mt =>
        rw [hm] at h
        simp only [Option.some.injEq] at h
        subst h
        exact le_max_left _ _
    · cases hm : maxFecha t with
      | none =>
        rw [maxFecha_eq_none_iff] at hm
        subst hm
        simp at hx
      | some mt =>
        rw [hm] at h
        simp only [Option.some.injEq] at h
        subst h
        exact le_trans (ih hm hx) (le_max_right _ _)

theorem maxFecha_eq_some_iff {l : List Int} {m : Int} :
    maxFecha l = some m ↔ m ∈ l ∧ ∀ x ∈ l, x ≤ m := by
  constructor
  · intro h
    exact ⟨maxFecha_mem h, fun x hx => le_maxFecha h hx⟩
  · rintro ⟨hmem, hub⟩
    cases hl : maxFecha l with
    | none =>
      rw [maxFecha_eq_none_iff] at hl
      subst hl
      simp at hmem
    | some m0 =>
      have h1 : m0 ≤ m := hub m0 (maxFecha_mem hl)
      have h2 : m ≤ m0 := le_maxFecha hl hmem
      rw [show m = m0 by omega]

theorem maxFecha_filter_ge {l : List Int} {m d0 : Int} (h : maxFecha l = some m)
    (hd : d0 ≤ m) : maxFecha (l.filter (fun x => decide (d0 ≤ x))) = some m := by
  rw [maxFecha_eq_some_iff]
  constructor
  · rw [List.mem_filter]
    exact ⟨maxFecha_mem h, by simpa using hd⟩
  · intro x hx
    exact le_maxFecha h (List.mem_filter.mp hx).1

/-! ## `cumFrom` lemmas -/

theorem length_cumFrom {b : ℚ} {l : List ℚ} : (cumFrom b l).length = l.length := by
  induction l generalizing b with
  | nil => rfl
  | cons d ds ih => simp [cumFrom, ih]

theorem cumFrom_getD_zero {b : ℚ} {d : ℚ} {ds : List ℚ} :
    (cumFrom b (d :: ds)).getD 0 0 = b + d := by
  simp [cumFrom]

theorem cumFrom_getD_succ {b : ℚ} {l : List ℚ} {i : Nat} (h : i + 1 < l.length) :
    (cumFrom b l).getD (i + 1) 0 = (cumFrom b l).getD i 0 + l.getD (i + 1) 0 := by
  induction l generalizing b i with
  | nil => simp at h
  | cons d ds ih =>
    rw [cumFrom]
    cases i with
    | zero =>
      cases ds with
      | nil => simp at h
      | cons d2 t =>
        simp [cumFrom]
    | succ i =>
      have h' : i + 1 < ds.length := by simpa using h
      simp only [List.getD_cons_succ]
      exact ih h'

/-! ## `saldoList` structure lemmas -/

theorem saldoList_nil {b : ℚ} {d0 : Int} : saldoList b d0 [] = [] := rfl

/-- When the combined frame is nonempty and its first row carries the
initial-balance date (which the range construction guarantees), the `Saldo`
column anchors the first row at `initial_bal` and accumulates the per-row
daily totals forward; the backward loop is empty. -/
theorem saldoList_anchor {b : ℚ} {d0 : Int} {c : CRow} {rest : List CRow}
    (hc : c.fecha = d0) :
    saldoList b d0 (c :: rest) =
      b :: cumFrom b (rest.map (fun r => dailyTotal (c :: rest) r.fecha)) := by
  unfold saldoList
  rw [List.findIdx?_cons]
  simp only [hc, beq_self_eq_true, if_true]
  simp [backFill]

theorem length_saldoList_anchor {b : ℚ} {d0 : Int} {c : CRow} {rest : List CRow}
    (hc : c.fecha = d0) :
    (saldoList b d0 (c :: rest)).length = rest.length + 1 := by
  rw [saldoList_anchor hc]
  simp [length_cumFrom]

/-! ## `mergeGroup` / `mergeDaily` lemmas -/

theorem mergeGroup_ne_nil {it : String} {agg : List AggRow} {dSite : String} {d : Int} :
    mergeGroup it agg dSite d ≠ [] := by
  simp only [mergeGroup]
  split
  · simp
  · next hne =>
    simp only [ne_eq, List.map_eq_nil_iff]
    simpa using hne

theorem mem_mergeGroup {it : String} {agg : List AggRow} {dSite : String} {d : Int}
    {r : CRow} (hr : r ∈ mergeGroup it agg dSite d) : r.item = it ∧ r.fecha = d := by
  simp only [mergeGroup] at hr
  split at hr
  · rcases List.mem_singleton.mp hr with rfl
    exact ⟨rfl, rfl⟩
  · rcases List.mem_map.mp hr with ⟨a, _, rfl⟩
    exact ⟨rfl, rfl⟩

theorem length_mergeGroup {it : String} {agg : List AggRow} {dSite : String} {d : Int} :
    (mergeGroup it agg dSite d).length =
      max 1 (agg.filter (fun a => a.fecha == d)).length := by
  simp only [mergeGroup]
  split
  · next he =>
    rw [List.isEmpty_iff] at he
    simp [he]
  · next he =>
    rw [List.isEmpty_iff] at he
    have : 0 < (agg.filter (fun a => a.fecha == d)).length :=
      List.length_pos.mpr he
    rw [List.length_map]
    omega

theorem mem_mergeDaily {it : String} {range : List Int} {agg : List AggRow}
    {dSite : String} {r : CRow} :
    r ∈ mergeDaily it range agg dSite ↔ ∃ d ∈ range, r ∈ mergeGroup it agg dSite d :=
  List.mem_flatMap

theorem mem_mergeDaily_facts {it : String} {range : List Int} {agg : List AggRow}
    {dSite : String} {r : CRow} (hr : r ∈ mergeDaily it range agg dSite) :
    r.item = it ∧ r.fecha ∈ range := by
  rcases mem_mergeDaily.mp hr with ⟨d, hd, hg⟩
  rcases mem_mergeGroup hg with ⟨h1, h2⟩
  exact ⟨h1, h2 ▸ hd⟩

/-- A nonempty day range makes the combined frame start with a row dated at
the start of the range. -/
theorem mergeDaily_cons_structure {it : String} {d : Int} {rest : List Int}
    {agg : List AggRow} {dSite : String} :
    ∃ c crest, mergeDaily it (d :: rest) agg dSite = c :: crest ∧
      c.fecha = d ∧ c.item = it := by
  unfold mergeDaily
  rw [List.flatMap_cons]
  cases hg : mergeGroup it agg dSite d with
  | nil => exact absurd hg mergeGroup_ne_nil
  | cons c t =>
    have hc : c ∈ mergeGroup it agg dSite d := by
      rw [hg]
      exact List.mem_cons_self _ _
    rcases mem_mergeGroup hc with ⟨h1, h2⟩
    exact ⟨c, t ++ rest.flatMap (mergeGroup it agg dSite), rfl, h2, h1⟩

theorem countP_mergeGroup_other {it : String} {agg : List AggRow} {dSite : String}
    {d d' : Int} (hne : d' ≠ d) :
    List.countP (fun r : CRow => r.fecha == d) (mergeGroup it agg dSite d') = 0 := by
  rw [List.countP_eq_zero]
  intro r hr
  have := (mem_mergeGroup hr).2
  simp [this, hne]

theorem countP_mergeGroup_self {it : String} {agg : List AggRow} {dSite : String}
    {d : Int} :
    List.countP (fun r : CRow => r.fecha == d) (mergeGroup it agg dSite d) =
      (mergeGroup it agg dSite d).length := by
  rw [List.countP_eq_length]
  intro r hr
  have := (mem_mergeGroup hr).2
  simp [this]

/-- In the combined frame, the number of rows carrying date `d` is: zero for
days outside the range, and the size of the day's merge group for days in the
(duplicate-free) range. -/
theorem countP_mergeDaily {it : String} {range : List Int} {agg : List AggRow}
    {dSite : String} {d : Int} (hnd : range.Nodup) :
    List.countP (fun r : CRow => r.fecha == d) (mergeDaily it range agg dSite) =
      if d ∈ range then (mergeGroup it agg dSite d).length else 0 := by
  induction range with
  | nil => simp [mergeDaily]
  | cons d' rest ih =>
    have hnd' : rest.Nodup := hnd.of_cons
    unfold mergeDaily at *
    rw [List.flatMap_cons, List.countP_append, ih hnd']
    by_cases hd : d = d'
    · subst hd
      have hnotin : d ∉ rest := by
        intro hmem
        exact (List.nodup_cons.mp hnd).1 hmem
      rw [countP_mergeGroup_self]
      simp [hnotin]
    · rw [countP_mergeGroup_other (fun h => hd h.symm)]
      simp only [List.mem_cons]
      by_cases hdr : d ∈ rest
      · simp [hdr, hd]
      · simp [hdr, hd]

/-! ## `process_item` structure lemmas -/

theorem itemCrows_cons (inv : List StockRecord) {mov : List MovementRecord}
    {d0 : Int} {it : String} (h : d0 ≤ itemEndDate mov d0 it) :
    ∃ c crest, itemCrows inv mov d0 it = c :: crest ∧ c.fecha = d0 ∧ c.item = it := by
  unfold itemCrows itemRange
  rw [date_range_cons h]
  exact mergeDaily_cons_structure

theorem itemCrows_nil (inv : List StockRecord) {mov : List MovementRecord}
    {d0 : Int} {it : String} (h : itemEndDate mov d0 it < d0) :
    itemCrows inv mov d0 it = [] := by
  unfold itemCrows itemRange
  rw [date_range_eq_nil_iff.mpr h]
  rfl

/-- When the item's reconstruction range is nonempty, the first output row of
the per-item loop is dated `initial_balance_date` and carries exactly the
item's initial balance, whatever the movements say. -/
theorem process_item_head (inv : List StockRecord) {mov : List MovementRecord}
    {d0 : Int} {it : String} (h : d0 ≤ itemEndDate mov d0 it) :
    ∃ r rrest, process_item inv mov d0 it = r :: rrest ∧ r.item = it ∧
      r.fecha = d0 ∧ r.saldo = initialBalOf inv it := by
  rcases itemCrows_cons inv h with ⟨c, crest, hc, hf, hi⟩
  unfold process_item
  rw [hc, saldoList_anchor hf]
  refine ⟨mkRow c (initialBalOf inv it), _, rfl, ?_, ?_, rfl⟩
  · exact hi
  · exact hf

theorem process_item_mem {inv : List StockRecord} {mov : List MovementRecord}
    {d0 : Int} {it : String} {r : Row} (hr : r ∈ process_item inv mov d0 it) :
    ∃ (c : CRow) (s : ℚ), r = mkRow c s ∧ c ∈ itemCrows inv mov d0 it := by
  unfold process_item at hr
  rcases List.mem_iff_getElem.mp hr with ⟨i, hlen, hget⟩
  have hi1 : i < (itemCrows inv mov d0 it).length := by
    rw [List.length_zipWith] at hlen
    omega
  have hi2 : i < (saldoList (initialBalOf inv it) d0 (itemCrows inv mov d0 it)).length := by
    rw [List.length_zipWith] at hlen
    omega
  refine ⟨(itemCrows inv mov d0 it)[i],
    (saldoList (initialBalOf inv it) d0 (itemCrows inv mov d0 it))[i], ?_,
    List.getElem_mem _⟩
  rw [← hget, List.getElem_zipWith]

theorem process_item_mem_item {inv : List StockRecord} {mov : List MovementRecord}
    {d0 : Int} {it : String} {r : Row} (hr : r ∈ process_item inv mov d0 it) :
    r.item = it := by
  rcases process_item_mem hr with ⟨c, s, rfl, hc⟩
  exact (mem_mergeDaily_facts hc).1

theorem process_item_mem_fecha {inv : List StockRecord} {mov : List MovementRecord}
    {d0 : Int} {it : String} {r : Row} (hr : r ∈ process_item inv mov d0 it) :
    d0 ≤ r.fecha ∧ r.fecha ≤ itemEndDate mov d0 it := by
  rcases process_item_mem hr with ⟨c, s, rfl, hc⟩
  have := (mem_mergeDaily_facts hc).2
  unfold itemRange at this
  have h2 := mem_date_range.mp this
  exact h2

/-! ## `all_items` and `process_movements` lemmas -/

theorem mem_all_items {inv : List StockRecord} {mov : List MovementRecord}
    {it : String} :
    it ∈ all_items inv mov ↔
      (it ∈ inv.map (fun s => s.item) ∨ it ∈ mov.map (fun m => m.item)) ∧ it ≠ "" := by
  unfold all_items
  rw [List.mem_filter, mem_uniqueFirst, List.mem_append]
  simp

theorem nodup_all_items {inv : List StockRecord} {mov : List MovementRecord} :
    (all_items inv mov).Nodup :=
  List.Nodup.filter _ nodup_uniqueFirst

theorem process_movements_ok {inv : List StockRecord} {mov : List MovementRecord}
    {d0 : Int} (h : (inv.map (fun s => s.item)).Nodup) :
    process_movements inv mov d0 =
      Except.ok (List.insertionSort rowLe
        ((all_items inv mov).flatMap (process_item inv mov d0))) := by
  unfold process_movements
  rw [if_pos h]

theorem process_movements_dup {inv : List StockRecord} {mov : List MovementRecord}
    {d0 : Int} (h : ¬ (inv.map (fun s => s.item)).Nodup) :
    process_movements inv mov d0 = Except.error dupItemsMsg := by
  unfold process_movements
  rw [if_neg h]

theorem mem_processed {inv : List StockRecord} {mov : List MovementRecord}
    {d0 : Int} {r : Row} :
    r ∈ List.insertionSort rowLe ((all_items inv mov).flatMap (process_item inv mov d0)) ↔
      ∃ it ∈ all_items inv mov, r ∈ process_item inv mov d0 it := by
  rw [(List.perm_insertionSort rowLe _).mem_iff, List.mem_flatMap]

/-! ## Aggregation-key lemmas -/

/-- The hypothesis under which a day never fans out into several merged rows:
all of the item's movements on any one day are booked at one site. -/
def SingleSitePerDay (mov : List MovementRecord) (it : String) : Prop :=
  ∀ m1 ∈ itemMovements mov it, ∀ m2 ∈ itemMovements mov it,
    m1.fecha = m2.fecha → m1.site = m2.site

theorem mem_aggKeys {ms : List MovementRecord} {k : Int × String} :
    k ∈ aggKeys ms ↔ ∃ m ∈ ms, m.fecha = k.1 ∧ m.site = k.2 := by
  unfold aggKeys
  rw [(List.perm_insertionSort keyLe _).mem_iff, mem_uniqueFirst, List.mem_map]
  constructor
  · rintro ⟨m, hm, hk⟩
    exact ⟨m, hm, by rw [← hk], by rw [← hk]⟩
  · rintro ⟨m, hm, h1, h2⟩
    exact ⟨m, hm, by cases k with | mk a b => simp_all⟩

theorem nodup_aggKeys {ms : List MovementRecord} : (aggKeys ms).Nodup :=
  (List.perm_insertionSort keyLe _).symm.nodup nodup_uniqueFirst

theorem aggFor_fecha {ms : List MovementRecord} {k : Int × String} :
    (aggFor ms k).fecha = k.1 := rfl

theorem dailyAgg_hits {ms : List MovementRecord} {d : Int} :
    (dailyAgg ms).filter (fun a => a.fecha == d) =
      ((aggKeys ms).filter (fun k => k.1 == d)).map (aggFor ms) := by
  unfold dailyAgg
  rw [List.filter_map]
  rfl

theorem aggKeys_unique_date {mov : List MovementRecord} {it : String}
    (HS : SingleSitePerDay mov it) :
    ∀ k1 ∈ aggKeys (itemMovements mov it), ∀ k2 ∈ aggKeys (itemMovements mov it),
      k1.1 = k2.1 → k1 = k2 := by
  intro k1 h1 k2 h2 he
  rcases mem_aggKeys.mp h1 with ⟨m1, hm1, hf1, hs1⟩
  rcases mem_aggKeys.mp h2 with ⟨m2, hm2, hf2, hs2⟩
  have hff : m1.fecha = m2.fecha := by rw [hf1, hf2, he]
  have hss := HS m1 hm1 m2 hm2 hff
  cases k1 with
  | mk a1 b1 =>
    cases k2 with
    | mk a2 b2 => simp_all

theorem filter_length_le_one {α : Type} {l : List α} {p : α → Bool} (hnd : l.Nodup)
    (huniq : ∀ a ∈ l, ∀ b ∈ l, p a = true → p b = true → a = b) :
    (l.filter p).length ≤ 1 := by
  rcases hf : l.filter p with _ | ⟨a, _ | ⟨b, t⟩⟩
  · simp
  · simp
  · exfalso
    have ha : a ∈ l.filter p := by
      rw [hf]
      exact List.mem_cons_self _ _
    have hb : b ∈ l.filter p := by
      rw [hf]
      exact List.mem_cons_of_mem _ (List.mem_cons_self _ _)
    have hab : a = b :=
      huniq a (List.mem_filter.mp ha).1 b (List.mem_filter.mp hb).1
        (List.mem_filter.mp ha).2 (List.mem_filter.mp hb).2
    have hnd' := hnd.filter p
    rw [hf] at hnd'
    rcases List.nodup_cons.mp hnd' with ⟨hain, _⟩
    exact hain (hab ▸ List.mem_cons_self _ _)

theorem filter_beq_of_nodup {l : List Int} (h : l.Nodup) {d : Int} (hd : d ∈ l) :
    l.filter (fun x => x == d) = [d] := by
  induction l with
  | nil => simp at hd
  | cons a t ih =>
    rcases List.nodup_cons.mp h with ⟨hat, hnt⟩
    rcases List.mem_cons.mp hd with rfl | hdt
    · rw [List.filter_cons]
      simp only [beq_self_eq_true, if_true]
      have : t.filter (fun x => x == d) = [] := by
        rw [List.filter_eq_nil_iff]
        intro x hx hxd
        exact hat ((by simpa using hxd : x = d) ▸ hx)
      rw [this]
    · rw [List.filter_cons]
      have hne : (a == d) = false := by
        simp only [beq_eq_false_iff_ne, ne_eq]
        rintro rfl
        exact hat hdt
      simp only [hne, Bool.false_eq_true, if_false]
      exact ih hnt hdt

/-- A junk row used only as a `headD` default; never actually selected. -/
def junkCRow : CRow :=
  { item := "", fecha := 0, site := "", movimientos := 0, entradas := 0, salidas := 0 }

/-- Under the one-site-per-day hypothesis every merge group is a single row,
and its `Movimientos` cell is exactly the item's net movement of that day. -/
theorem mergeGroup_single {mov : List MovementRecord} {it : String}
    (HS : SingleSitePerDay mov it) (dSite : String) (d : Int) :
    ∃ c : CRow, mergeGroup it (dailyAgg (itemMovements mov it)) dSite d = [c] ∧
      c.item = it ∧ c.fecha = d ∧ c.movimientos = dayNet mov it d := by
  have hle : (((aggKeys (itemMovements mov it)).filter (fun k => k.1 == d))).length ≤ 1 := by
    refine filter_length_le_one nodup_aggKeys ?_
    intro a ha b hb hpa hpb
    refine aggKeys_unique_date HS a ha b hb ?_
    have h1 : a.1 = d := by simpa using hpa
    have h2 : b.1 = d := by simpa using hpb
    rw [h1, h2]
  simp only [mergeGroup, dailyAgg_hits]
  rcases hf : (aggKeys (itemMovements mov it)).filter (fun k => k.1 == d) with _ | ⟨k, krest⟩
  · -- no aggregate row on day `d`: the zero-filled skeleton row survives,
    -- and the item indeed has no movement dated `d`.
    rw [hf]
    simp only [List.map_nil, List.isEmpty_nil, if_true]
    refine ⟨_, rfl, rfl, rfl, ?_⟩
    have hnone : (itemMovements mov it).filter (fun m => m.fecha == d) = [] := by
      rw [List.filter_eq_nil_iff]
      intro m hm hmd
      have hmem : (m.fecha, m.site) ∈ aggKeys (itemMovements mov it) :=
        mem_aggKeys.mpr ⟨m, hm, rfl, rfl⟩
      have : (m.fecha, m.site) ∈
          (aggKeys (itemMovements mov it)).filter (fun k => k.1 == d) :=
        List.mem_filter.mpr ⟨hmem, hmd⟩
      rw [hf] at this
      simp at this
    unfold dayNet
    rw [hnone]
    simp
  · have hkrest : krest = [] := by
      have := hle
      rw [hf] at this
      simp only [List.length_cons] at this
      exact List.eq_nil_of_length_eq_zero (by omega)
    subst hkrest
    have hkmem : k ∈ (aggKeys (itemMovements mov it)).filter (fun k => k.1 == d) := by
      rw [hf]
      exact List.mem_cons_self _ _
    have hk1 : k.1 = d := by
      have := (List.mem_filter.mp hkmem).2
      simpa using this
    have hkagg : k ∈ aggKeys (itemMovements mov it) := (List.mem_filter.mp hkmem).1
    rcases mem_aggKeys.mp hkagg with ⟨m0, hm0, hm0f, hm0s⟩
    rw [hf]
    simp only [List.map_cons, List.map_nil, List.isEmpty_cons, if_false]
    refine ⟨_, rfl, rfl, rfl, ?_⟩
    show (aggFor (itemMovements mov it) k).movimientos = dayNet mov it d
    unfold aggFor dayNet
    simp only
    congr 1
    congr 1
    refine List.filter_congr ?_
    intro m hm
    by_cases hmd : m.fecha = d
    · have hsite : m.site = m0.site := HS m hm m0 hm0 (by rw [hmd, ← hk1, ← hm0f])
      have : m.site = k.2 := by rw [hsite, hm0s]
      simp [hmd, hk1, this]
    · have : (m.fecha == d) = false := by simpa using hmd
      have h2 : (m.fecha == k.1) = false := by
        rw [hk1]
        exact this
      simp [this, h2]

theorem flatMap_eq_map_of_singleton {α β : Type} {l : List α} {F : α → List β}
    {f : α → β} (h : ∀ a ∈ l, F a = [f a]) : l.flatMap F = l.map f := by
  induction l with
  | nil => rfl
  | cons a t ih =>
    rw [List.flatMap_cons, h a (List.mem_cons_self _ _),
      ih (fun x hx => h x (List.mem_cons_of_mem _ hx))]
    rfl

/-- Under the one-site-per-day hypothesis the combined frame is exactly one
row per day of the range, with per-day net movement in the `Movimientos`
cell. -/
theorem itemCrows_single_site (inv : List StockRecord) {mov : List MovementRecord}
    (d0 : Int) {it : String} (HS : SingleSitePerDay mov it) :
    ∃ f : Int → CRow, itemCrows inv mov d0 it = (itemRange mov d0 it).map f ∧
      ∀ d, (f d).fecha = d ∧ (f d).item = it ∧ (f d).movimientos = dayNet mov it d := by
  refine ⟨fun d =>
    (mergeGroup it (dailyAgg (itemMovements mov it)) (defaultSiteOf inv it) d).headD
      junkCRow, ?_, ?_⟩
  · unfold itemCrows mergeDaily
    refine flatMap_eq_map_of_singleton ?_
    intro d _
    rcases mergeGroup_single HS (defaultSiteOf inv it) d with
      ⟨c, hc, _, _, _⟩
    rw [hc]
    rfl
  · intro d
    rcases mergeGroup_single HS (defaultSiteOf inv it) d with
      ⟨c, hc, h1, h2, h3⟩
    dsimp only
    rw [hc]
    exact ⟨h2, h1, h3⟩

/-- With one row per day and duplicate-free days, the per-day transform total
of a day in the range is just that day's `Movimientos` cell. -/
theorem dailyTotal_single {range : List Int} {f : Int → CRow} (hrange : range.Nodup)
    (hf : ∀ d, (f d).fecha = d) {d : Int} (hd : d ∈ range) :
    dailyTotal (range.map f) d = (f d).movimientos := by
  unfold dailyTotal
  rw [List.filter_map]
  have hcongr : ∀ x ∈ range, (((fun r : CRow => r.fecha == d) ∘ f) x) = (x == d) := by
    intro x _
    simp [Function.comp, hf x]
  rw [List.filter_congr hcongr, filter_beq_of_nodup hrange hd]
  simp

theorem cons_cumFrom_getD_succ {b : ℚ} {L : List ℚ} {i : Nat} (h : i < L.length) :
    (b :: cumFrom b L).getD (i + 1) 0 = (b :: cumFrom b L).getD i 0 + L.getD i 0 := by
  cases i with
  | zero =>
    cases L with
    | nil => simp at h
    | cons x t => simp [cumFrom]
  | succ i =>
    rw [List.getD_cons_succ, List.getD_cons_succ]
    exact cumFrom_getD_succ h

theorem mkRow_item {c : CRow} {s : ℚ} : (mkRow c s).item = c.item := rfl

theorem mkRow_fecha {c : CRow} {s : ℚ} : (mkRow c s).fecha = c.fecha := rfl

theorem mkRow_saldo {c : CRow} {s : ℚ} : (mkRow c s).saldo = s := rfl

theorem length_itemSaldos {inv : List StockRecord} {mov : List MovementRecord}
    {d0 : Int} {it : String} :
    (saldoList (initialBalOf inv it) d0 (itemCrows inv mov d0 it)).length =
      (itemCrows inv mov d0 it).length := by
  by_cases h : d0 ≤ itemEndDate mov d0 it
  · rcases itemCrows_cons inv h with ⟨c, crest, hc, hcf, _⟩
    rw [hc, length_saldoList_anchor hcf]
    simp
  · rw [itemCrows_nil inv (by omega)]
    rfl

/-- The day-level balance recurrence, valid for items whose movements hit at
most one site per day: each output row one day after another one advances the
balance by exactly that day's net movement. -/
theorem process_item_saldo_step {inv : List StockRecord} {mov : List MovementRecord}
    {d0 : Int} {it : String} (HS : SingleSitePerDay mov it) {r1 r2 : Row}
    (h1 : r1 ∈ process_item inv mov d0 it) (h2 : r2 ∈ process_item inv mov d0 it)
    (hstep : r2.fecha = r1.fecha + 1) :
    r2.saldo = r1.saldo + dayNet mov it r2.fecha := by
  have hd0e : d0 ≤ itemEndDate mov d0 it := by
    by_contra hlt
    push_neg at hlt
    have hnil : process_item inv mov d0 it = [] := by
      unfold process_item
      rw [itemCrows_nil inv hlt]
      rfl
    rw [hnil] at h1
    simp at h1
  obtain ⟨c, crest, hc, hcf, hci⟩ := itemCrows_cons inv hd0e
  obtain ⟨f, hmap, hfp⟩ := itemCrows_single_site inv d0 HS
  unfold process_item at h1 h2
  rcases List.mem_iff_getElem.mp h1 with ⟨i, hi, hri⟩
  rcases List.mem_iff_getElem.mp h2 with ⟨j, hj, hrj⟩
  have hslen : (saldoList (initialBalOf inv it) d0 (itemCrows inv mov d0 it)).length =
      (itemCrows inv mov d0 it).length := length_itemSaldos
  rw [List.length_zipWith, hslen, min_self] at hi hj
  rw [List.getElem_zipWith] at hri hrj
  have hfe : ∀ t, ∀ ht : t < (itemCrows inv mov d0 it).length,
      (itemCrows inv mov d0 it)[t].fecha = d0 + t := by
    intro t ht
    have ht2 : t < (itemRange mov d0 it).length := by
      rw [hmap, List.length_map] at ht
      exact ht
    simp only [hmap, List.getElem_map]
    rw [(hfp _).1]
    unfold itemRange
    exact getElem_date_range ht2
  have hf1 : r1.fecha = d0 + i := by
    rw [← hri, mkRow_fecha, hfe i hi]
  have hf2 : r2.fecha = d0 + j := by
    rw [← hrj, mkRow_fecha, hfe j hj]
  have hij : j = i + 1 := by
    rw [hf1, hf2] at hstep
    omega
  subst hij
  have hcl : (itemCrows inv mov d0 it).length = crest.length + 1 := by
    rw [hc]
    simp
  have hib : i < crest.length := by omega
  have hsal : saldoList (initialBalOf inv it) d0 (itemCrows inv mov d0 it) =
      initialBalOf inv it :: cumFrom (initialBalOf inv it)
        (crest.map (fun r => dailyTotal (c :: crest) r.fecha)) := by
    rw [hc]
    exact saldoList_anchor hcf
  have hs1 : r1.saldo =
      (saldoList (initialBalOf inv it) d0 (itemCrows inv mov d0 it)).getD i 0 := by
    rw [← hri, mkRow_saldo, List.getD_eq_getElem]
  have hs2 : r2.saldo =
      (saldoList (initialBalOf inv it) d0 (itemCrows inv mov d0 it)).getD (i + 1) 0 := by
    rw [← hrj, mkRow_saldo, List.getD_eq_getElem]
  rw [hs1, hs2, hsal, cons_cumFrom_getD_succ (by simpa using hib)]
  congr 1
  -- the `i`-th forward increment is the daily total of the `(i+1)`-st row's
  -- date, which under the single-site hypothesis is the day's net movement
  have hgd : ((crest.map (fun r => dailyTotal (c :: crest) r.fecha)).getD i 0) =
      dailyTotal (c :: crest) crest[i].fecha := by
    rw [List.getD_eq_getElem _ _ (by simpa using hib), List.getElem_map]
  rw [hgd]
  have hj2 : i + 1 < (saldoList (initialBalOf inv it) d0 (itemCrows inv mov d0 it)).length := by
    rw [hslen]
    omega
  have hcrest_eq : crest[i] = (itemCrows inv mov d0 it)[i + 1] := by
    simp only [hc, List.getElem_cons_succ]
  have hfecha : crest[i].fecha = r2.fecha := by
    rw [hcrest_eq, ← mkRow_fecha (s := (saldoList (initialBalOf inv it) d0
      (itemCrows inv mov d0 it))[i + 1]), hrj]
  rw [hfecha, ← hc, hmap]
  have hmemrange : r2.fecha ∈ itemRange mov d0 it := by
    rw [hf2]
    unfold itemRange
    rw [mem_date_range]
    have hj2 : (i + 1 : Nat) < (itemRange mov d0 it).length := by
      rw [hmap, List.length_map] at hj
      exact hj
    unfold itemRange at hj2
    rw [length_date_range] at hj2
    omega
  rw [dailyTotal_single (by unfold itemRange; exact nodup_date_range)
    (fun d => (hfp d).1) hmemrange]
  exact (hfp r2.fecha).2.2

/-! ## Row-count lemmas -/

theorem countP_zipWith {cs : List CRow} {ss : List ℚ} (h : ss.length = cs.length)
    {p : Row → Bool} {q : CRow → Bool} (hpq : ∀ c s, p (mkRow c s) = q c) :
    List.countP p (List.zipWith mkRow cs ss) = List.countP q cs := by
  induction cs generalizing ss with
  | nil => simp
  | cons c ct ih =>
    cases ss with
    | nil => simp at h
    | cons s st =>
      rw [List.zipWith_cons_cons, List.countP_cons, List.countP_cons, hpq,
        ih (by simpa using h)]

theorem countP_process_item {inv : List StockRecord} {mov : List MovementRecord}
    {d0 : Int} {it : String} {d : Int} :
    List.countP (fun r : Row => r.fecha == d) (process_item inv mov d0 it) =
      if d ∈ itemRange mov d0 it then
        (mergeGroup it (dailyAgg (itemMovements mov it)) (defaultSiteOf inv it) d).length
      else 0 := by
  unfold process_item
  rw [countP_zipWith (q := fun c : CRow => c.fecha == d) length_itemSaldos
    (fun c s => rfl)]
  unfold itemCrows
  exact countP_mergeDaily (by unfold itemRange; exact nodup_date_range)

theorem countP_process_item_other {inv : List StockRecord} {mov : List MovementRecord}
    {d0 : Int} {it it' : String} (h : it' ≠ it) {d : Int} :
    List.countP (fun r : Row => r.item == it && r.fecha == d)
      (process_item inv mov d0 it') = 0 := by
  rw [List.countP_eq_zero]
  intro r hr
  have hit := process_item_mem_item hr
  simp [hit, h]

theorem countP_process_item_self {inv : List StockRecord} {mov : List MovementRecord}
    {d0 : Int} {it : String} {d : Int} :
    List.countP (fun r : Row => r.item == it && r.fecha == d)
        (process_item inv mov d0 it) =
      List.countP (fun r : Row => r.fecha == d) (process_item inv mov d0 it) := by
  rw [List.countP_eq_length_filter, List.countP_eq_length_filter]
  congr 1
  refine List.filter_congr ?_
  intro r hr
  have hit := process_item_mem_item hr
  simp [hit]

theorem countP_flatMap_single {inv : List StockRecord} {mov : List MovementRecord}
    {d0 : Int} {it : String} {d : Int} {l : List String} (hnd : l.Nodup) :
    List.countP (fun r : Row => r.item == it && r.fecha == d)
        (l.flatMap (process_item inv mov d0)) =
      if it ∈ l then
        List.countP (fun r : Row => r.fecha == d) (process_item inv mov d0 it)
      else 0 := by
  induction l with
  | nil => simp
  | cons a t ih =>
    rw [List.flatMap_cons, List.countP_append, ih hnd.of_cons]
    by_cases ha : a = it
    · subst ha
      have hnotin : a ∉ t := (List.nodup_cons.mp hnd).1
      rw [countP_process_item_self]
      simp [hnotin]
    · rw [countP_process_item_other ha]
      have hiff : (it ∈ a :: t) ↔ (it ∈ t) := by
        constructor
        · intro hmem
          rcases List.mem_cons.mp hmem with rfl | hmem2
          · exact absurd rfl ha
          · exact hmem2
        · exact List.mem_cons_of_mem _
      rw [if_congr hiff rfl rfl]
      omega

theorem countP_processed {inv : List StockRecord} {mov : List MovementRecord}
    {d0 : Int} {it : String} {d : Int} :
    List.countP (fun r : Row => r.item == it && r.fecha == d)
        (List.insertionSort rowLe ((all_items inv mov).flatMap (process_item inv mov d0))) =
      if it ∈ all_items inv mov then
        List.countP (fun r : Row => r.fecha == d) (process_item inv mov d0 it)
      else 0 := by
  rw [(List.perm_insertionSort rowLe _).countP_eq]
  exact countP_flatMap_single nodup_all_items

/-- The distinct sites at which an item records movements on one day. -/
def sitesOn (mov : List MovementRecord) (it : String) (d : Int) : List String :=
  uniqueFirst (((itemMovements mov it).filter (fun m => m.fecha == d)).map
    (fun m => m.site))

theorem keysAt_length {ms : List MovementRecord} {d : Int} :
    ((aggKeys ms).filter (fun k => k.1 == d)).length =
      (uniqueFirst ((ms.filter (fun m => m.fecha == d)).map (fun m => m.site))).length := by
  have hAnd : ((aggKeys ms).filter (fun k => k.1 == d)).Nodup :=
    nodup_aggKeys.filter _
  have hsnd_nodup :
      (((aggKeys ms).filter (fun k => k.1 == d)).map Prod.snd).Nodup := by
    refine hAnd.map_on ?_
    intro x hx y hy hxy
    have hx1 : x.1 = d := by simpa using (List.mem_filter.mp hx).2
    have hy1 : y.1 = d := by simpa using (List.mem_filter.mp hy).2
    cases x with
    | mk a1 b1 =>
      cases y with
      | mk a2 b2 => simp_all
  have hperm : (((aggKeys ms).filter (fun k => k.1 == d)).map Prod.snd).Perm
      (uniqueFirst ((ms.filter (fun m => m.fecha == d)).map (fun m => m.site))) := by
    refine List.perm_of_nodup_nodup_toFinset_eq hsnd_nodup nodup_uniqueFirst ?_
    ext s
    simp only [List.mem_toFinset, List.mem_map, mem_uniqueFirst, List.mem_filter]
    constructor
    · rintro ⟨k, ⟨hk, hkd⟩, rfl⟩
      have hk1 : k.1 = d := by simpa using hkd
      rcases mem_aggKeys.mp hk with ⟨m, hm, hf, hs⟩
      exact ⟨m, ⟨hm, by simp [hf, hk1]⟩, hs⟩
    · rintro ⟨m, ⟨hm, hmd⟩, rfl⟩
      refine ⟨(m.fecha, m.site), ⟨mem_aggKeys.mpr ⟨m, hm, rfl, rfl⟩, ?_⟩, rfl⟩
      simpa using hmd
  calc ((aggKeys ms).filter (fun k => k.1 == d)).length
      = (((aggKeys ms).filter (fun k => k.1 == d)).map Prod.snd).length := by
        rw [List.length_map]
    _ = _ := hperm.length_eq

theorem length_mergeGroup_sites {mov : List MovementRecord} {it dSite : String}
    {d : Int} :
    (mergeGroup it (dailyAgg (itemMovements mov it)) dSite d).length =
      max 1 (sitesOn mov it d).length := by
  rw [length_mergeGroup, dailyAgg_hits, List.length_map]
  unfold sitesOn
  rw [keysAt_length]

/-! ## Stock lookup lemmas -/

theorem lookupStock_of_nodup {inv : List StockRecord}
    (h : (inv.map (fun s => s.item)).Nodup) {s : StockRecord} (hs : s ∈ inv) :
    lookupStock inv s.item = some s := by
  induction inv with
  | nil => simp at hs
  | cons a t ih =>
    rw [List.map_cons] at h
    rcases List.nodup_cons.mp h with ⟨hhead, htail⟩
    unfold lookupStock
    rw [List.find?_cons]
    rcases List.mem_cons.mp hs with rfl | hst
    · simp
    · have hne : (a.item == s.item) = false := by
        simp only [beq_eq_false_iff_ne, ne_eq]
        intro he
        exact hhead (he ▸ List.mem_map.mpr ⟨s, hst, rfl⟩)
      rw [hne]
      exact ih htail hst

theorem lookupStock_of_not_mem {inv : List StockRecord} {it : String}
    (h : it ∉ inv.map (fun s => s.item)) : lookupStock inv it = none := by
  unfold lookupStock
  rw [List.find?_eq_none]
  intro s hs
  simp only [beq_eq_false_iff_ne, ne_eq, Bool.not_eq_true]
  intro he
  exact h (List.mem_map.mpr ⟨s, hs, by simpa using he⟩)

/-! ## Invariance under dropping pre-anchor movements -/

theorem charListLt_irrefl (l : List Char) : charListLt l l = false := by
  induction l with
  | nil => rfl
  | cons a as ih => simp [charListLt, lt_irrefl, ih]

theorem charListLt_asymm : ∀ {l1 l2 : List Char}, charListLt l1 l2 = true →
    charListLt l2 l1 = false
  | _, [], h => by simp [charListLt] at h
  | [], _ :: _, _ => rfl
  | a :: as, b :: bs, h => by
    by_cases hab : a < b
    · simp [charListLt, hab, lt_asymm hab]
    · by_cases hba : b < a
      · simp [charListLt, hab, hba] at h
      · simp only [charListLt, if_neg hab, if_neg hba] at h
        simp [charListLt, hab, hba, charListLt_asymm h]

theorem charListLt_conn : ∀ {l1 l2 : List Char}, charListLt l1 l2 = false →
    charListLt l2 l1 = false → l1 = l2
  | [], [], _, _ => rfl
  | [], _ :: _, h1, _ => by simp [charListLt] at h1
  | _ :: _, [], _, h2 => by simp [charListLt] at h2
  | a :: as, b :: bs, h1, h2 => by
    by_cases hab : a < b
    · simp [charListLt, hab] at h1
    · by_cases hba : b < a
      · simp [charListLt, hba] at h2
      · have hab2 : a = b := le_antisymm (not_lt.mp hba) (not_lt.mp hab)
        simp only [charListLt, if_neg hab, if_neg hba] at h1
        simp only [charListLt, if_neg hba, if_neg hab] at h2
        rw [hab2, charListLt_conn h1 h2]

theorem charListLt_trans : ∀ {l1 l2 l3 : List Char}, charListLt l1 l2 = true →
    charListLt l2 l3 = true → charListLt l1 l3 = true
  | _, [], _, h1, _ => by simp [charListLt] at h1
  | _, _, [], _, h2 => by simp [charListLt] at h2
  | [], _ :: _, _ :: _, _, _ => rfl
  | a :: as, b :: bs, c :: cs, h1, h2 => by
    by_cases hab : a < b
    · by_cases hbc : b < c
      · simp [charListLt, lt_trans hab hbc]
      · by_cases hcb : c < b
        · simp [charListLt, hbc, hcb] at h2
        · have hb : b = c := le_antisymm (not_lt.mp hcb) (not_lt.mp hbc)
          simp [charListLt, hb ▸ hab]
    · by_cases hba : b < a
      · simp [charListLt, hab, hba] at h1
      · have ha : a = b := le_antisymm (not_lt.mp hba) (not_lt.mp hab)
        simp only [charListLt, if_neg hab, if_neg hba] at h1
        by_cases hbc : b < c
        · simp [charListLt, ha ▸ hbc]
        · by_cases hcb : c < b
          · simp [charListLt, hbc, hcb] at h2
          · have hb : b = c := le_antisymm (not_lt.mp hcb) (not_lt.mp hbc)
            simp only [charListLt, if_neg hbc, if_neg hcb] at h2
            have hrec := charListLt_trans h1 h2
            have hac : ¬ a < c := hb ▸ ha ▸ lt_irrefl a
            have hca : ¬ c < a := hb ▸ ha ▸ lt_irrefl a
            simp [charListLt, hac, hca, hrec]

theorem strLe_trans {a b c : String} (h1 : strLe a b = true) (h2 : strLe b c = true) :
    strLe a c = true := by
  unfold strLe at *
  simp only [Bool.not_eq_true'] at *
  by_contra hca
  simp only [Bool.not_eq_false] at hca
  rcases hab : charListLt a.data b.data with _ | _
  · have heq : a.data = b.data := charListLt_conn hab h1
    rw [heq] at hca
    rw [hca] at h2
    simp at h2
  · have hcb := charListLt_trans hca hab
    rw [hcb] at h2
    simp at h2

theorem strLe_total (a b : String) : strLe a b = true ∨ strLe b a = true := by
  unfold strLe
  simp only [Bool.not_eq_true']
  rcases h : charListLt b.data a.data with _ | _
  · exact Or.inl rfl
  · exact Or.inr (charListLt_asymm h)

theorem strLe_antisymm {a b : String} (h1 : strLe a b = true) (h2 : strLe b a = true) :
    a = b := by
  unfold strLe at *
  simp only [Bool.not_eq_true'] at *
  have heq := charListLt_conn h2 h1
  cases a with
  | mk la =>
    cases b with
    | mk lb =>
      simp only at heq
      rw [heq]

instance : IsTrans (Int × String) keyLe where
  trans := by
    intro a b c hab hbc
    rcases hab with h1 | ⟨h1, h2⟩ <;> rcases hbc with h3 | ⟨h3, h4⟩
    · exact Or.inl (lt_trans h1 h3)
    · exact Or.inl (h3 ▸ h1)
    · exact Or.inl (h1 ▸ h3)
    · exact Or.inr ⟨h1.trans h3, strLe_trans h2 h4⟩

instance : IsTotal (Int × String) keyLe where
  total := by
    intro a b
    rcases lt_trichotomy a.1 b.1 with h | h | h
    · exact Or.inl (Or.inl h)
    · rcases strLe_total a.2 b.2 with h2 | h2
      · exact Or.inl (Or.inr ⟨h, h2⟩)
      · exact Or.inr (Or.inr ⟨h.symm, h2⟩)
    · exact Or.inr (Or.inl h)

instance : IsAntisymm (Int × String) keyLe where
  antisymm := by
    intro a b hab hba
    have h1 : a.1 = b.1 := by
      rcases hab with h | ⟨h, _⟩ <;> rcases hba with h2 | ⟨h2, _⟩ <;> omega
    have h2 : a.2 = b.2 := by
      rcases hab with h | ⟨_, h⟩
      · omega
      · rcases hba with h2 | ⟨_, h2⟩
        · omega
        · exact strLe_antisymm h h2
    cases a with
    | mk x1 x2 =>
      cases b with
      | mk y1 y2 => simp_all

theorem flatMap_congr {α β : Type} {l : List α} {f g : α → List β}
    (h : ∀ a ∈ l, f a = g a) : l.flatMap f = l.flatMap g := by
  induction l with
  | nil => rfl
  | cons a t ih =>
    rw [List.flatMap_cons, List.flatMap_cons, h a (List.mem_cons_self _ _),
      ih (fun x hx => h x (List.mem_cons_of_mem _ hx))]

theorem itemMovements_filter {mov : List MovementRecord} {it : String}
    {p : MovementRecord → Bool} :
    itemMovements (mov.filter p) it = (itemMovements mov it).filter p := by
  unfold itemMovements
  rw [List.filter_filter, List.filter_filter]
  exact List.filter_congr (fun m _ => Bool.and_comm _ _)

theorem endDateFor_filter {d0 : Int} {ms : List MovementRecord}
    (h : d0 ≤ endDateFor d0 ms) :
    endDateFor d0 (ms.filter (fun m => decide (d0 ≤ m.fecha))) = endDateFor d0 ms := by
  unfold endDateFor at *
  cases hm : maxFecha (ms.map (fun m => m.fecha)) with
  | none =>
    rw [maxFecha_eq_none_iff, List.map_eq_nil_iff] at hm
    subst hm
    rfl
  | some M =>
    rw [hm] at h
    have hmapfil : (ms.filter (fun m => decide (d0 ≤ m.fecha))).map (fun m => m.fecha) =
        (ms.map (fun m => m.fecha)).filter (fun x => decide (d0 ≤ x)) := by
      rw [List.filter_map]
      rfl
    rw [hmapfil, maxFecha_filter_ge hm h]

theorem aggFor_filter {ms : List MovementRecord} {d0 : Int} {k : Int × String}
    (hk : d0 ≤ k.1) :
    aggFor (ms.filter (fun m => decide (d0 ≤ m.fecha))) k = aggFor ms k := by
  unfold aggFor
  have hg : (ms.filter (fun m => decide (d0 ≤ m.fecha))).filter
        (fun m => m.fecha == k.1 && m.site == k.2) =
      ms.filter (fun m => m.fecha == k.1 && m.site == k.2) := by
    rw [List.filter_filter]
    refine List.filter_congr ?_
    intro m _
    by_cases hf : m.fecha = k.1
    · have hd : decide (d0 ≤ m.fecha) = true := by
        simp only [decide_eq_true_eq, hf]
        exact hk
      simp [hd]
    · have hfalse : (m.fecha == k.1) = false := by simpa using hf
      simp [hfalse]
  rw [hg]

theorem aggKeys_filter_hits {ms : List MovementRecord} {d0 d : Int} (hd : d0 ≤ d) :
    (aggKeys (ms.filter (fun m => decide (d0 ≤ m.fecha)))).filter (fun k => k.1 == d) =
      (aggKeys ms).filter (fun k => k.1 == d) := by
  refine List.eq_of_perm_of_sorted (r := keyLe) ?_ ?_ ?_
  · refine List.perm_of_nodup_nodup_toFinset_eq (nodup_aggKeys.filter _)
      (nodup_aggKeys.filter _) ?_
    ext k
    simp only [List.mem_toFinset, List.mem_filter, mem_aggKeys, List.mem_filter]
    constructor
    · rintro ⟨⟨m, ⟨hm, _⟩, hf, hs⟩, hkd⟩
      exact ⟨⟨m, hm, hf, hs⟩, hkd⟩
    · rintro ⟨⟨m, hm, hf, hs⟩, hkd⟩
      have hk1 : k.1 = d := by simpa using hkd
      refine ⟨⟨m, ⟨hm, ?_⟩, hf, hs⟩, hkd⟩
      simp only [decide_eq_true_eq, hf, hk1]
      exact hd
  · exact (List.sorted_insertionSort keyLe _).filter _
  · exact (List.sorted_insertionSort keyLe _).filter _

theorem dailyAgg_hits_filter {ms : List MovementRecord} {d0 d : Int} (hd : d0 ≤ d) :
    (dailyAgg (ms.filter (fun m => decide (d0 ≤ m.fecha)))).filter
        (fun a => a.fecha == d) =
      (dailyAgg ms).filter (fun a => a.fecha == d) := by
  rw [dailyAgg_hits, dailyAgg_hits, aggKeys_filter_hits hd]
  refine List.map_congr_left ?_
  intro k hk
  have hk1 : k.1 = d := by simpa using (List.mem_filter.mp hk).2
  exact aggFor_filter (hk1 ▸ hd)

theorem mergeGroup_congr_hits {it dSite : String} {d : Int} {agg agg2 : List AggRow}
    (h : agg.filter (fun a => a.fecha == d) = agg2.filter (fun a => a.fecha == d)) :
    mergeGroup it agg dSite d = mergeGroup it agg2 dSite d := by
  simp only [mergeGroup]
  rw [h]

/-- Dropping movement records dated strictly before the anchor leaves the
whole per-item reconstruction unchanged, as long as the item's last movement
is not before the anchor. -/
theorem process_item_filter {inv : List StockRecord} {mov : List MovementRecord}
    {d0 : Int} {it : String} (h : d0 ≤ itemEndDate mov d0 it) :
    process_item inv (mov.filter (fun m => decide (d0 ≤ m.fecha))) d0 it =
      process_item inv mov d0 it := by
  have hend : itemEndDate (mov.filter (fun m => decide (d0 ≤ m.fecha))) d0 it =
      itemEndDate mov d0 it := by
    unfold itemEndDate
    rw [itemMovements_filter]
    exact endDateFor_filter h
  have hcrows : itemCrows inv (mov.filter (fun m => decide (d0 ≤ m.fecha))) d0 it =
      itemCrows inv mov d0 it := by
    unfold itemCrows itemRange
    rw [hend, itemMovements_filter]
    refine flatMap_congr ?_
    intro d hd
    have hd0 : d0 ≤ d := (mem_date_range.mp hd).1
    exact mergeGroup_congr_hits (dailyAgg_hits_filter hd0)
  unfold process_item
  rw [hcrows]

deriving instance DecidableEq for Except

theorem process_movements_ok_elim {inv : List StockRecord} {mov : List MovementRecord}
    {d0 : Int} {out : List Row}
    (hout : process_movements inv mov d0 = Except.ok out) :
    (inv.map (fun s => s.item)).Nodup ∧
      out = List.insertionSort rowLe
        ((all_items inv mov).flatMap (process_item inv mov d0)) := by
  by_cases hnd : (inv.map (fun s => s.item)).Nodup
  · rw [process_movements_ok hnd] at hout
    refine ⟨hnd, ?_⟩
    injection hout with h
    exact h.symm
  · rw [process_movements_dup hnd] at hout
    exact absurd hout (by simp)

/-! ## `maxQ` and `meanQ` lemmas -/

theorem foldl_max_mem (a : ℚ) (t : List ℚ) : t.foldl max a = a ∨ t.foldl max a ∈ t := by
  induction t generalizing a with
  | nil => exact Or.inl rfl
  | cons b bs ih =>
    rw [List.foldl_cons]
    rcases max_choice a b with h2 | h2 <;> rw [h2]
    · rcases ih a with h | h
      · exact Or.inl h
      · exact Or.inr (List.mem_cons_of_mem _ h)
    · rcases ih b with h | h
      · refine Or.inr ?_
        rw [h]
        exact List.mem_cons_self _ _
      · exact Or.inr (List.mem_cons_of_mem _ h)

theorem le_foldl_max (a : ℚ) (t : List ℚ) :
    a ≤ t.foldl max a ∧ ∀ x ∈ t, x ≤ t.foldl max a := by
  induction t generalizing a with
  | nil => exact ⟨le_refl _, by simp⟩
  | cons b bs ih =>
    rw [List.foldl_cons]
    rcases ih (max a b) with ⟨h1, h2⟩
    refine ⟨le_trans (le_max_left a b) h1, ?_⟩
    intro x hx
    rcases List.mem_cons.mp hx with rfl | hx2
    · exact le_trans (le_max_right a x) h1
    · exact h2 x hx2

theorem maxQ_mem {l : List ℚ} (h : l ≠ []) : maxQ l ∈ l := by
  cases l with
  | nil => exact absurd rfl h
  | cons a t =>
    show t.foldl max a ∈ a :: t
    rcases foldl_max_mem a t with h2 | h2
    · rw [h2]
      exact List.mem_cons_self _ _
    · exact List.mem_cons_of_mem _ h2

theorem le_maxQ {l : List ℚ} {x : ℚ} (hx : x ∈ l) : x ≤ maxQ l := by
  cases l with
  | nil => simp at hx
  | cons a t =>
    show _ ≤ t.foldl max a
    rcases List.mem_cons.mp hx with rfl | hx2
    · exact (le_foldl_max x t).1
    · exact (le_foldl_max a t).2 x hx2

theorem meanQ_mul {l : List ℚ} (h : l ≠ []) : meanQ l * (l.length : ℚ) = l.sum := by
  unfold meanQ
  have hlen : (l.length : ℚ) ≠ 0 := by
    simp only [ne_eq, Nat.cast_eq_zero, List.length_eq_zero]
    exact h
  field_simp

/-- `salidas_abs`: the absolute values of the outflow rows' `Movimientos`,
in row order. -/
def outflowAbs (rows : List Row) : List ℚ :=
  (rows.filter (fun r => r.movimientos < 0)).map (fun r => |r.movimientos|)

/-! ## Claim theorems -/

/-- C4: if the stock snapshot contains two rows with the same item id, the
reconstruction call fails with the duplicate-items error before producing any
output; the duplicates are never silently collapsed into one row. -/
theorem C4_duplicate_stock_errors (inv : List StockRecord) (mov : List MovementRecord)
    (d0 : Int) (i j : Nat) (hi : i < inv.length) (hj : j < inv.length) (hne : i ≠ j)
    (heq : inv[i].item = inv[j].item) :
    process_movements inv mov d0 = Except.error dupItemsMsg := by
  refine process_movements_dup ?_
  intro hnd
  have hi2 : i < (inv.map (fun s => s.item)).length := by simpa using hi
  have hj2 : j < (inv.map (fun s => s.item)).length := by simpa using hj
  have hmap : (inv.map (fun s => s.item))[i] = (inv.map (fun s => s.item))[j] := by
    rw [List.getElem_map, List.getElem_map]
    exact heq
  exact hne (hnd.getElem_inj_iff.mp hmap)

/-- C4 witness: the two-row snapshot of Scenario E with duplicated item id
"X" makes the call fail. -/
theorem C4_witness :
    process_movements [⟨"X", "S", 1, 0, 0⟩, ⟨"X", "T", 2, 0, 0⟩] [] 0 =
      Except.error dupItemsMsg :=
  C4_duplicate_stock_errors [⟨"X", "S", 1, 0, 0⟩, ⟨"X", "T", 2, 0, 0⟩] [] 0 0 1
    (by decide) (by decide) (by decide) (by decide)

/-- C5 counterexample: on the standard input schemas, `process_movements`
mutates both input frames in place — the stock frame gains an
`InitialBalance` column and the movement frame gains `Entradas` and
`Salidas` columns — so the inputs are not left unchanged. -/
theorem C5_counterexample :
    invColsAfter ["Item", "CurrentStock", "LeadTime", "StockSeguridad", "Site"] ≠
        ["Item", "CurrentStock", "LeadTime", "StockSeguridad", "Site"] ∧
      movColsAfter ["Item", "Site", "Fecha", "Movimientos"] ≠
        ["Item", "Site", "Fecha", "Movimientos"] := by
  decide

/-- C5 (amended): `process_movements` is a deterministic function of its
input values (in this embedding it is a pure function, so running it twice on
identical inputs trivially yields identical output), but it does not leave
the input tables unchanged: whenever the stock frame lacks an
`InitialBalance` column and the movement frame lacks a `Salidas` column —
always the case for the documented input schemas — the call adds
`InitialBalance` (and `Site` when absent) to the stock frame and `Entradas`
and `Salidas` to the movement frame, in place. -/
theorem C5_mutates_inputs (ci cm : List String) (h1 : "InitialBalance" ∉ ci)
    (h2 : "Salidas" ∉ cm) :
    invColsAfter ci ≠ ci ∧ "InitialBalance" ∈ invColsAfter ci ∧
      movColsAfter cm ≠ cm ∧ "Entradas" ∈ movColsAfter cm ∧
      "Salidas" ∈ movColsAfter cm := by
  have hinv : ∃ c1, invColsAfter ci = c1 ++ ["InitialBalance"] ∧
      ci.length ≤ c1.length ∧ ci ⊆ c1 := by
    unfold invColsAfter
    by_cases hs : "Site" ∈ ci
    · rw [if_pos hs, if_neg h1]
      exact ⟨ci, rfl, le_refl _, List.Subset.refl _⟩
    · rw [if_neg hs]
      have hnotin : "InitialBalance" ∉ ci ++ ["Site"] := by
        simp only [List.mem_append, List.mem_singleton]
        rintro (h | h)
        · exact h1 h
        · exact absurd h (by decide)
      rw [if_neg hnotin]
      exact ⟨ci ++ ["Site"], rfl, by simp, List.subset_append_left _ _⟩
  have hmov : ∃ c1, movColsAfter cm = c1 ++ ["Salidas"] ∧
      cm.length ≤ c1.length ∧ "Entradas" ∈ c1 ∧ cm ⊆ c1 := by
    unfold movColsAfter
    by_cases he : "Entradas" ∈ cm
    · rw [if_pos he]
      have hnotin : "Salidas" ∉ cm := h2
      rw [if_neg hnotin]
      exact ⟨cm, rfl, le_refl _, he, List.Subset.refl _⟩
    · rw [if_neg he]
      have hnotin : "Salidas" ∉ cm ++ ["Entradas"] := by
        simp only [List.mem_append, List.mem_singleton]
        rintro (h | h)
        · exact h2 h
        · exact absurd h (by decide)
      rw [if_neg hnotin]
      exact ⟨cm ++ ["Entradas"], rfl, by simp, by simp, List.subset_append_left _ _⟩
  rcases hinv with ⟨c1, hc1, hl1, _⟩
  rcases hmov with ⟨c2, hc2, hl2, he2, _⟩
  refine ⟨?_, ?_, ?_, ?_, ?_⟩
  · intro hcontra
    have : (invColsAfter ci).length = ci.length := by rw [hcontra]
    rw [hc1, List.length_append] at this
    simp at this
    omega
  · rw [hc1]
    simp
  · intro hcontra
    have : (movColsAfter cm).length = cm.length := by rw [hcontra]
    rw [hc2, List.length_append] at this
    simp at this
    omega
  · rw [hc2]
    exact List.mem_append_left _ he2
  · rw [hc2]
    simp

/-- C5 witness: the mutation on the documented input schemas. -/
theorem C5_witness :
    invColsAfter inventoryExpectedCols ≠ inventoryExpectedCols ∧
      "InitialBalance" ∈ invColsAfter inventoryExpectedCols ∧
      movColsAfter consumptionExpectedCols ≠ consumptionExpectedCols ∧
      "Entradas" ∈ movColsAfter consumptionExpectedCols ∧
      "Salidas" ∈ movColsAfter consumptionExpectedCols :=
  C5_mutates_inputs inventoryExpectedCols consumptionExpectedCols (by decide) (by decide)

/-- C9 counterexample: handed a movement table without its `Movimientos`
column (stock table complete), `process_movements` itself fails with a bare
`KeyError("Movimientos")`, which does not identify the offending table, and
by that point the stock frame has already been mutated in place (partial
processing). -/
theorem C9_counterexample :
    pmColumnError inventoryExpectedCols ["Item", "Site", "Fecha"] =
        some (ReconError.keyError "Movimientos") ∧
      errorNamesTable (ReconError.keyError "Movimientos") = false ∧
      invColsAfter inventoryExpectedCols ≠ inventoryExpectedCols := by
  decide

/-- C9 (amended): the up-front column validation lives in the data loaders:
for any table missing a required column, `checkExpectedCols` fails with an
error carrying the offending file's name and the missing column names, before
any processing.  `process_movements` itself validates only the `Item`
columns with table-identifying errors; any other missing required column
surfaces as a bare pandas `KeyError` naming only the column (see the
counterexample). -/
theorem C9_loader_validation :
    (∀ fileName : String, ∀ expected cols : List String, ∀ c ∈ expected, c ∉ cols →
      ∃ missing, checkExpectedCols fileName expected cols =
        Except.error (fileName, missing) ∧ c ∈ missing) ∧
    (∀ ci cm : List String, "Item" ∉ ci →
      pmColumnError ci cm = some ReconError.missingItemInventario ∧
        errorNamesTable ReconError.missingItemInventario = true) := by
  constructor
  · intro fileName expected cols c hc hnc
    have hmem : c ∈ expected.filter (fun x => x ∉ cols) :=
      List.mem_filter.mpr ⟨hc, by simpa using hnc⟩
    refine ⟨expected.filter (fun x => x ∉ cols), ?_, hmem⟩
    unfold checkExpectedCols
    rw [if_neg ?_]
    intro he
    rw [List.isEmpty_iff] at he
    rw [he] at hmem
    simp at hmem
  · intro ci cm h
    unfold pmColumnError
    rw [if_pos h]
    exact ⟨rfl, rfl⟩

/-- C9 witness: a movement file missing `Movimientos` is rejected by the
loader with the file name and the missing column; a stock frame missing
`Item` is rejected by `process_movements` with a table-identifying error. -/
theorem C9_witness :
    (∃ missing, checkExpectedCols "consumos.xlsx" consumptionExpectedCols
        ["Item", "Site", "Fecha"] = Except.error ("consumos.xlsx", missing) ∧
      "Movimientos" ∈ missing) ∧
    (pmColumnError ["CurrentStock"] [] = some ReconError.missingItemInventario ∧
      errorNamesTable ReconError.missingItemInventario = true) :=
  ⟨C9_loader_validation.1 "consumos.xlsx" consumptionExpectedCols
      ["Item", "Site", "Fecha"] "Movimientos" (by decide) (by decide),
    C9_loader_validation.2 ["CurrentStock"] [] (by decide)⟩

/-- C1 counterexample: item "A" is in the stock snapshot (CurrentStock 10,
StockSeguridad 5) but its only movement is dated strictly before the
initial-balance date 0, so `pd.date_range(0, -1)` is empty and the
reconstruction emits no row at all for the item — in particular no row dated
0 with balance 15. -/
theorem C1_counterexample :
    process_movements [⟨"A", "S", 10, 0, 5⟩] [⟨"A", "S", -1, -3⟩] 0 = Except.ok [] := by
  decide

/-- C1 (amended): for every item of the stock snapshot whose reconstruction
range is nonempty — it has no movement, or its last movement is on or after
the initial-balance date — and whose id is nonempty, the output (which exists
because the snapshot's ids are duplicate-free) contains a row dated
`initial_balance_date` whose balance is exactly `CurrentStock +
StockSeguridad`, regardless of any movements recorded on that date.  When all
of the item's movements predate the anchor, the item's series is empty and no
such row exists (see the counterexample). -/
theorem C1_anchor_row (inv : List StockRecord) (mov : List MovementRecord) (d0 : Int)
    (s : StockRecord) (hnd : (inv.map (fun x => x.item)).Nodup) (hs : s ∈ inv)
    (hne : s.item ≠ "") (hend : d0 ≤ itemEndDate mov d0 s.item) :
    ∃ out, process_movements inv mov d0 = Except.ok out ∧
      ∃ r ∈ out, r.item = s.item ∧ r.fecha = d0 ∧
        r.saldo = s.currentStock + s.stockSeguridad := by
  refine ⟨_, process_movements_ok hnd, ?_⟩
  rcases process_item_head inv hend with ⟨r, rrest, hpi, hritem, hrfecha, hrsaldo⟩
  have hbal : initialBalOf inv s.item = s.currentStock + s.stockSeguridad := by
    unfold initialBalOf
    rw [lookupStock_of_nodup hnd hs]
    rfl
  have hitems : s.item ∈ all_items inv mov :=
    mem_all_items.mpr ⟨Or.inl (List.mem_map.mpr ⟨s, hs, rfl⟩), hne⟩
  refine ⟨r, mem_processed.mpr ⟨s.item, hitems, ?_⟩, hritem, hrfecha, ?_⟩
  · rw [hpi]
    exact List.mem_cons_self _ _
  · rw [hrsaldo, hbal]

/-- C1 witness: Scenario A — stock 100 + safety 20, no movements. -/
theorem C1_witness :
    ∃ out, process_movements [⟨"X", "S", 100, 0, 20⟩] [] 0 = Except.ok out ∧
      ∃ r ∈ out, r.item = "X" ∧ r.fecha = 0 ∧ r.saldo = (100 : ℚ) + 20 :=
  C1_anchor_row [⟨"X", "S", 100, 0, 20⟩] [] 0 ⟨"X", "S", 100, 0, 20⟩ (by decide)
    (List.mem_singleton.mpr rfl) (by decide) (by decide)

/-- C8: an item appearing in the movement log but absent from the stock
snapshot is still reconstructed: its rows cover exactly the calendar days
from the initial-balance date through its last movement date, and the row at
the anchor date carries balance 0. -/
theorem C8_default_zero (inv : List StockRecord) (mov : List MovementRecord) (d0 : Int)
    (it : String) (hnd : (inv.map (fun x => x.item)).Nodup)
    (hmv : it ∈ mov.map (fun m => m.item)) (hinv : it ∉ inv.map (fun x => x.item))
    (hne : it ≠ "") :
    ∃ out, process_movements inv mov d0 = Except.ok out ∧
      (∀ d : Int, (∃ r ∈ out, r.item = it ∧ r.fecha = d) ↔
        (d0 ≤ d ∧ d ≤ itemEndDate mov d0 it)) ∧
      (d0 ≤ itemEndDate mov d0 it →
        ∃ r ∈ out, r.item = it ∧ r.fecha = d0 ∧ r.saldo = 0) := by
  have hbal : initialBalOf inv it = 0 := by
    unfold initialBalOf
    rw [lookupStock_of_not_mem hinv]
  have hitems : it ∈ all_items inv mov := mem_all_items.mpr ⟨Or.inr hmv, hne⟩
  refine ⟨_, process_movements_ok hnd, ?_, ?_⟩
  · intro d
    constructor
    · rintro ⟨r, hr, hri, hrf⟩
      rcases mem_processed.mp hr with ⟨it2, _, hp⟩
      have hit2 : it2 = it := (process_item_mem_item hp).symm.trans hri
      subst hit2
      have hbounds := process_item_mem_fecha hp
      rw [hrf] at hbounds
      exact hbounds
    · rintro ⟨hd1, hd2⟩
      have hdr : d ∈ itemRange mov d0 it := by
        unfold itemRange
        exact mem_date_range.mpr ⟨hd1, hd2⟩
      have hcount : 0 < List.countP (fun r : Row => r.fecha == d)
          (process_item inv mov d0 it) := by
        rw [countP_process_item, if_pos hdr]
        exact List.length_pos.mpr mergeGroup_ne_nil
      rcases List.countP_pos_iff.mp hcount with ⟨r, hrp, hpd⟩
      exact ⟨r, mem_processed.mpr ⟨it, hitems, hrp⟩, process_item_mem_item hrp,
        by simpa using hpd⟩
  · intro hend
    rcases process_item_head inv hend with ⟨r, rrest, hpi, h1, h2, h3⟩
    refine ⟨r, mem_processed.mpr ⟨it, hitems, ?_⟩, h1, h2, ?_⟩
    · rw [hpi]
      exact List.mem_cons_self _ _
    · rw [h3, hbal]

/-- C8 witness: Scenario D — item "Y" has a movement but no stock row. -/
theorem C8_witness :
    ∃ out, process_movements [] [⟨"Y", "S", 2, -4⟩] 0 = Except.ok out ∧
      (∀ d : Int, (∃ r ∈ out, r.item = "Y" ∧ r.fecha = d) ↔
        (0 ≤ d ∧ d ≤ itemEndDate [⟨"Y", "S", 2, -4⟩] 0 "Y")) ∧
      (0 ≤ itemEndDate [⟨"Y", "S", 2, -4⟩] 0 "Y" →
        ∃ r ∈ out, r.item = "Y" ∧ r.fecha = 0 ∧ r.saldo = 0) :=
  C8_default_zero [] [⟨"Y", "S", 2, -4⟩] 0 "Y" (by decide) (by decide) (by decide)
    (by decide)

/-- C10 counterexample: a movement dated strictly before the anchor is not
simply ignored — it stretches `end_date_for_item` backwards.  With a stock
item whose only movement predates the anchor, the run yields no rows at all,
while the run with that record removed yields the single anchor row with
balance 15: the outputs differ. -/
theorem C10_counterexample :
    process_movements [⟨"A", "S", 10, 0, 5⟩] [⟨"A", "S", -1, -3⟩] 0 = Except.ok [] ∧
      process_movements [⟨"A", "S", 10, 0, 5⟩]
          (([⟨"A", "S", -1, -3⟩] : List MovementRecord).filter
            (fun m => decide ((0 : Int) ≤ m.fecha))) 0 =
        Except.ok [⟨"A", 0, "S", 0, 0, 0, 15⟩] ∧
      (Except.ok ([] : List Row) : Except String (List Row)) ≠
        Except.ok [⟨"A", 0, "S", 0, 0, 0, 15⟩] := by
  refine ⟨by decide, ?_, by decide⟩
  norm_num +decide [process_movements, process_item, all_items, uniqueFirst,
    uniqueFirstAux, itemCrows, itemRange, itemEndDate, itemMovements, maxFecha,
    endDateFor, date_range, dateRangeGo, mergeDaily, mergeGroup, dailyAgg, aggKeys,
    aggFor, keyLe, strLe, strLt, charListLt, saldoList, dailyTotal, cumFrom, backFill,
    mkRow, rowLe, List.insertionSort, List.orderedInsert, entradasOf, salidasOf,
    defaultSiteOf, initialBalOf, lookupStock, initialBalance, List.findIdx?]

/-- C10 (amended): no output row is ever dated before the initial-balance
date, and a movement dated strictly before that date contributes to no
surviving row — removing all such records leaves every item's reconstructed
block unchanged — provided the item's last movement date is not itself before
the anchor.  When it is, the item's series collapses to empty while the
filtered run produces the single anchor row (see the counterexample). -/
theorem C10_no_backward (inv : List StockRecord) (mov : List MovementRecord) (d0 : Int)
    (out : List Row) (hout : process_movements inv mov d0 = Except.ok out) :
    (∀ r ∈ out, d0 ≤ r.fecha) ∧
      (∀ it : String, d0 ≤ itemEndDate mov d0 it →
        process_item inv (mov.filter (fun m => decide (d0 ≤ m.fecha))) d0 it =
          process_item inv mov d0 it) := by
  rcases process_movements_ok_elim hout with ⟨hnd, hout2⟩
  constructor
  · intro r hr
    rw [hout2] at hr
    rcases mem_processed.mp hr with ⟨it2, _, hp⟩
    exact (process_item_mem_fecha hp).1
  · intro it h
    exact process_item_filter h

/-- C10 witness: a one-movement item with the movement after the anchor. -/
theorem C10_witness :
    (∀ r ∈ [(⟨"X", 0, "S", 0, 0, 0, 120⟩ : Row), ⟨"X", 1, "S", -30, 0, -30, 90⟩],
      (0 : Int) ≤ r.fecha) ∧
      (∀ it : String, (0 : Int) ≤ itemEndDate [⟨"X", "S", 1, -30⟩] 0 it →
        process_item [⟨"X", "S", 100, 0, 20⟩]
            (([⟨"X", "S", 1, -30⟩] : List MovementRecord).filter
              (fun m => decide ((0 : Int) ≤ m.fecha))) 0 it =
          process_item [⟨"X", "S", 100, 0, 20⟩] [⟨"X", "S", 1, -30⟩] 0 it) :=
  C10_no_backward [⟨"X", "S", 100, 0, 20⟩] [⟨"X", "S", 1, -30⟩] 0
    [⟨"X", 0, "S", 0, 0, 0, 120⟩, ⟨"X", 1, "S", -30, 0, -30, 90⟩]
    (by norm_num +decide [process_movements, process_item, all_items, uniqueFirst,
      uniqueFirstAux, itemCrows, itemRange, itemEndDate, itemMovements, maxFecha,
      endDateFor, date_range, dateRangeGo, mergeDaily, mergeGroup, dailyAgg, aggKeys,
      aggFor, keyLe, strLe, strLt, charListLt, saldoList, dailyTotal, cumFrom,
      backFill, mkRow, rowLe, List.insertionSort, List.orderedInsert, entradasOf,
      salidasOf, defaultSiteOf, initialBalOf, lookupStock, initialBalance,
      List.findIdx?])

/-- C2 counterexample: item "A" moves +5 at two different sites on day 1
(anchor day 0, no stock).  Day 1 yields two merged rows and the per-row
recurrence adds the full daily total (10) once per row: the reconstructed
balances are 0 (day 0), then 10 and 20 on day 1, although
`balance[0] + net[1] = 0 + 10`.  The day-1 balance both fails to be unique
and, on the second row, fails the recurrence. -/
theorem C2_counterexample :
    (process_movements [] [⟨"A", "S1", 1, 5⟩, ⟨"A", "S2", 1, 5⟩] 0).map
        (fun out => out.map (fun r => (r.fecha, r.saldo))) =
      Except.ok [(0, 0), (1, 10), (1, 20)] ∧
      dayNet [⟨"A", "S1", 1, 5⟩, ⟨"A", "S2", 1, 5⟩] "A" 1 = 10 ∧
      ¬ ((20 : ℚ) = 0 + 10) := by
  refine ⟨?_, ?_, by norm_num⟩
  · norm_num +decide [process_movements, process_item, all_items, uniqueFirst,
      uniqueFirstAux, itemCrows, itemRange, itemEndDate, itemMovements, maxFecha,
      endDateFor, date_range, dateRangeGo, mergeDaily, mergeGroup, dailyAgg, aggKeys,
      aggFor, keyLe, strLe, strLt, charListLt, saldoList, dailyTotal, cumFrom,
      backFill, mkRow, rowLe, List.insertionSort, List.orderedInsert, entradasOf,
      salidasOf, defaultSiteOf, initialBalOf, lookupStock, initialBalance,
      List.findIdx?]
  · norm_num +decide [dayNet, itemMovements]

/-- C2 (amended): the day-to-day balance recurrence
`balance[d] = balance[d-1] + net_movement[d]` holds for every item whose
movements are booked at a single site per calendar day.  When several sites
record movements for one item on the same day, the output carries several
rows for that day and each successive row adds the whole daily net again, so
the day-level recurrence fails (see the counterexample). -/
theorem C2_day_recurrence (inv : List StockRecord) (mov : List MovementRecord)
    (d0 : Int) (it : String) (out : List Row)
    (hout : process_movements inv mov d0 = Except.ok out)
    (HS : SingleSitePerDay mov it) (r1 r2 : Row) (h1 : r1 ∈ out) (h2 : r2 ∈ out)
    (hi1 : r1.item = it) (hi2 : r2.item = it) (hstep : r2.fecha = r1.fecha + 1) :
    r2.saldo = r1.saldo + dayNet mov it r2.fecha := by
  rcases process_movements_ok_elim hout with ⟨hnd, hout2⟩
  rw [hout2] at h1 h2
  rcases mem_processed.mp h1 with ⟨it1, _, hp1⟩
  rcases mem_processed.mp h2 with ⟨it2, _, hp2⟩
  have he1 : it1 = it := (process_item_mem_item hp1).symm.trans hi1
  have he2 : it2 = it := (process_item_mem_item hp2).symm.trans hi2
  subst he1
  subst he2
  exact process_item_saldo_step HS hp1 hp2 hstep

/-- C2 witness: Scenario B — stock 120, one outflow of 30 on day 1; the
day-1 balance is the day-0 balance plus the day's net movement. -/
theorem C2_witness :
    (⟨"X", 1, "S", -30, 0, -30, 90⟩ : Row).saldo =
      (⟨"X", 0, "S", 0, 0, 0, 120⟩ : Row).saldo +
        dayNet [⟨"X", "S", 1, -30⟩, ⟨"X", "S", 3, 10⟩] "X"
          (⟨"X", 1, "S", -30, 0, -30, 90⟩ : Row).fecha :=
  C2_day_recurrence [⟨"X", "S", 100, 0, 20⟩] [⟨"X", "S", 1, -30⟩, ⟨"X", "S", 3, 10⟩]
    0 "X"
    [⟨"X", 0, "S", 0, 0, 0, 120⟩, ⟨"X", 1, "S", -30, 0, -30, 90⟩,
      ⟨"X", 2, "S", 0, 0, 0, 90⟩, ⟨"X", 3, "S", 10, 10, 0, 100⟩]
    (by norm_num +decide [process_movements, process_item, all_items, uniqueFirst,
      uniqueFirstAux, itemCrows, itemRange, itemEndDate, itemMovements, maxFecha,
      endDateFor, date_range, dateRangeGo, mergeDaily, mergeGroup, dailyAgg, aggKeys,
      aggFor, keyLe, strLe, strLt, charListLt, saldoList, dailyTotal, cumFrom,
      backFill, mkRow, rowLe, List.insertionSort, List.orderedInsert, entradasOf,
      salidasOf, defaultSiteOf, initialBalOf, lookupStock, initialBalance,
      List.findIdx?])
    (by unfold SingleSitePerDay; decide)
    ⟨"X", 0, "S", 0, 0, 0, 120⟩ ⟨"X", 1, "S", -30, 0, -30, 90⟩
    (by norm_num) (by norm_num) rfl rfl (by decide)

/-- C3 counterexample: with movements for item "A" at two sites on the same
day, the output holds two rows for the single pair (item "A", day 1) — the
(item, date) key is not unique. -/
theorem C3_counterexample :
    (process_movements [] [⟨"A", "S1", 1, 5⟩, ⟨"A", "S2", 1, 5⟩] 0).map
        (fun out => out.countP (fun r => r.item == "A" && r.fecha == 1)) =
      Except.ok 2 := by
  decide

/-- C3 (amended): for every processed item, the number of output rows keyed
(item, d) is exactly `max 1 k` for every day d in the closed range from the
initial-balance date to the item's last movement date — where `k` is the
number of distinct sites at which the item records movements on day d — and 0
outside the range.  So every day of the range appears, no day is missing, and
a day appears exactly once iff at most one site moves that item that day;
multi-site days are duplicated, one row per site (see the counterexample). -/
theorem C3_one_row_per_day (inv : List StockRecord) (mov : List MovementRecord)
    (d0 : Int) (it : String) (d : Int) (out : List Row)
    (hout : process_movements inv mov d0 = Except.ok out)
    (hit : it ∈ all_items inv mov) :
    out.countP (fun r => r.item == it && r.fecha == d) =
      if d0 ≤ d ∧ d ≤ itemEndDate mov d0 it then max 1 (sitesOn mov it d).length
      else 0 := by
  rcases process_movements_ok_elim hout with ⟨hnd, hout2⟩
  rw [hout2, countP_processed, if_pos hit, countP_process_item,
    length_mergeGroup_sites]
  refine if_congr ?_ rfl rfl
  unfold itemRange
  exact mem_date_range

/-- C3 witness: one stock item with one single-site movement on day 1: each
of days 0 and 1 appears exactly once. -/
theorem C3_witness :
    ([(⟨"X", 0, "S", 0, 0, 0, 120⟩ : Row), ⟨"X", 1, "S", -30, 0, -30, 90⟩].countP
        (fun r => r.item == "X" && r.fecha == 1)) =
      if (0 : Int) ≤ 1 ∧ (1 : Int) ≤ itemEndDate [⟨"X", "S", 1, -30⟩] 0 "X" then
        max 1 (sitesOn [⟨"X", "S", 1, -30⟩] "X" 1).length
      else 0 :=
  C3_one_row_per_day [⟨"X", "S", 100, 0, 20⟩] [⟨"X", "S", 1, -30⟩] 0 "X" 1
    [⟨"X", 0, "S", 0, 0, 0, 120⟩, ⟨"X", 1, "S", -30, 0, -30, 90⟩]
    (by norm_num +decide [process_movements, process_item, all_items, uniqueFirst,
      uniqueFirstAux, itemCrows, itemRange, itemEndDate, itemMovements, maxFecha,
      endDateFor, date_range, dateRangeGo, mergeDaily, mergeGroup, dailyAgg, aggKeys,
      aggFor, keyLe, strLe, strLt, charListLt, saldoList, dailyTotal, cumFrom,
      backFill, mkRow, rowLe, List.insertionSort, List.orderedInsert, entradasOf,
      salidasOf, defaultSiteOf, initialBalOf, lookupStock, initialBalance,
      List.findIdx?])
    (by decide)

/-- C6: with at least two distinct absolute outflow values the analyzer's
upper bound is `Q3 + 1.5 * IQR` with the quartiles computed by linear
interpolation between closest ranks; on Scenario C (absolute outflows
[5, 5, 5, 5, 100]) it returns upper bound 5, reports 100 as the only
outlier, and the mean excluding outliers is 5. -/
theorem C6_iqr_upper_bound :
    (∀ rows : List Row, 1 < nunique (outflowAbs rows) →
      (calculate_outliers_and_mean_without_outliers rows).1 =
        quantileLinear (outflowAbs rows) (3 / 4) +
          (3 / 2) * (quantileLinear (outflowAbs rows) (3 / 4) -
            quantileLinear (outflowAbs rows) (1 / 4))) ∧
    (calculate_outliers_and_mean_without_outliers
      [⟨"X", 1, "S", -5, 0, -5, 0⟩, ⟨"X", 2, "S", -5, 0, -5, 0⟩,
        ⟨"X", 3, "S", -5, 0, -5, 0⟩, ⟨"X", 4, "S", -5, 0, -5, 0⟩,
        ⟨"X", 5, "S", -100, 0, -100, 0⟩]).1 = 5 ∧
    (calculate_outliers_and_mean_without_outliers
      [⟨"X", 1, "S", -5, 0, -5, 0⟩, ⟨"X", 2, "S", -5, 0, -5, 0⟩,
        ⟨"X", 3, "S", -5, 0, -5, 0⟩, ⟨"X", 4, "S", -5, 0, -5, 0⟩,
        ⟨"X", 5, "S", -100, 0, -100, 0⟩]).2.1 = 5 ∧
    reportedOutliers
        (calculate_outliers_and_mean_without_outliers
          [⟨"X", 1, "S", -5, 0, -5, 0⟩, ⟨"X", 2, "S", -5, 0, -5, 0⟩,
            ⟨"X", 3, "S", -5, 0, -5, 0⟩, ⟨"X", 4, "S", -5, 0, -5, 0⟩,
            ⟨"X", 5, "S", -100, 0, -100, 0⟩]).2.2
        (calculate_outliers_and_mean_without_outliers
          [⟨"X", 1, "S", -5, 0, -5, 0⟩, ⟨"X", 2, "S", -5, 0, -5, 0⟩,
            ⟨"X", 3, "S", -5, 0, -5, 0⟩, ⟨"X", 4, "S", -5, 0, -5, 0⟩,
            ⟨"X", 5, "S", -100, 0, -100, 0⟩]).1 =
      [⟨"X", 5, "S", -100, 0, -100, 0⟩] := by
  refine ⟨?_, ?_, ?_, ?_⟩
  · intro rows h
    have hne : ¬ ((rows.filter (fun r => r.movimientos < 0)).isEmpty = true) := by
      intro he
      rw [List.isEmpty_iff] at he
      have : outflowAbs rows = [] := by
        unfold outflowAbs
        rw [he]
        rfl
      rw [this] at h
      simp [nunique, uniqueFirst, uniqueFirstAux] at h
    unfold outflowAbs at h ⊢
    simp only [calculate_outliers_and_mean_without_outliers]
    rw [if_neg hne, if_pos h]
  · norm_num [calculate_outliers_and_mean_without_outliers, nunique, uniqueFirst,
      uniqueFirstAux, outflowAbs, quantileLinear, List.insertionSort,
      List.orderedInsert, meanQ]
    norm_num [show ((3 : ℤ)).toNat = 3 from rfl, List.getElem_cons_succ,
      List.getElem_cons_zero]
  · norm_num [calculate_outliers_and_mean_without_outliers, nunique, uniqueFirst,
      uniqueFirstAux, outflowAbs, quantileLinear, List.insertionSort,
      List.orderedInsert, meanQ]
    norm_num [show ((3 : ℤ)).toNat = 3 from rfl, List.getElem_cons_succ,
      List.getElem_cons_zero, List.filter_cons]
  · norm_num [calculate_outliers_and_mean_without_outliers, reportedOutliers, nunique,
      uniqueFirst, uniqueFirstAux, outflowAbs, quantileLinear, List.insertionSort,
      List.orderedInsert, meanQ]
    norm_num [show ((3 : ℤ)).toNat = 3 from rfl, List.getElem_cons_succ,
      List.getElem_cons_zero, List.filter_cons]

/-- C6 witness: the first conjunct of `C6_iqr_upper_bound` instantiated at
the Scenario C window. -/
theorem C6_witness :
    (calculate_outliers_and_mean_without_outliers
      [⟨"X", 1, "S", -5, 0, -5, 0⟩, ⟨"X", 2, "S", -5, 0, -5, 0⟩,
        ⟨"X", 3, "S", -5, 0, -5, 0⟩, ⟨"X", 4, "S", -5, 0, -5, 0⟩,
        ⟨"X", 5, "S", -100, 0, -100, 0⟩]).1 =
      quantileLinear (outflowAbs
        [⟨"X", 1, "S", -5, 0, -5, 0⟩, ⟨"X", 2, "S", -5, 0, -5, 0⟩,
          ⟨"X", 3, "S", -5, 0, -5, 0⟩, ⟨"X", 4, "S", -5, 0, -5, 0⟩,
          ⟨"X", 5, "S", -100, 0, -100, 0⟩]) (3 / 4) +
        (3 / 2) * (quantileLinear (outflowAbs
          [⟨"X", 1, "S", -5, 0, -5, 0⟩, ⟨"X", 2, "S", -5, 0, -5, 0⟩,
            ⟨"X", 3, "S", -5, 0, -5, 0⟩, ⟨"X", 4, "S", -5, 0, -5, 0⟩,
            ⟨"X", 5, "S", -100, 0, -100, 0⟩]) (3 / 4) -
          quantileLinear (outflowAbs
            [⟨"X", 1, "S", -5, 0, -5, 0⟩, ⟨"X", 2, "S", -5, 0, -5, 0⟩,
              ⟨"X", 3, "S", -5, 0, -5, 0⟩, ⟨"X", 4, "S", -5, 0, -5, 0⟩,
              ⟨"X", 5, "S", -100, 0, -100, 0⟩]) (1 / 4)) :=
  C6_iqr_upper_bound.1
    [⟨"X", 1, "S", -5, 0, -5, 0⟩, ⟨"X", 2, "S", -5, 0, -5, 0⟩,
      ⟨"X", 3, "S", -5, 0, -5, 0⟩, ⟨"X", 4, "S", -5, 0, -5, 0⟩,
      ⟨"X", 5, "S", -100, 0, -100, 0⟩]
    (by norm_num [nunique, uniqueFirst, uniqueFirstAux, outflowAbs])

/-- C7: with at least one outflow row but fewer than two distinct absolute
outflow values, the analyzer returns the maximum absolute outflow as upper
bound (an outflow value that dominates all others) and the arithmetic mean
of the absolute outflows; with no outflow rows it returns (0, 0). -/
theorem C7_degenerate_window :
    (∀ rows : List Row, rows.filter (fun r => r.movimientos < 0) ≠ [] →
      ¬ 1 < nunique (outflowAbs rows) →
      (calculate_outliers_and_mean_without_outliers rows).1 = maxQ (outflowAbs rows) ∧
      (calculate_outliers_and_mean_without_outliers rows).1 ∈ outflowAbs rows ∧
      (∀ x ∈ outflowAbs rows, x ≤ (calculate_outliers_and_mean_without_outliers rows).1) ∧
      (calculate_outliers_and_mean_without_outliers rows).2.1 = meanQ (outflowAbs rows) ∧
      (calculate_outliers_and_mean_without_outliers rows).2.1 *
        ((outflowAbs rows).length : ℚ) = (outflowAbs rows).sum) ∧
    (∀ rows : List Row, rows.filter (fun r => r.movimientos < 0) = [] →
      calculate_outliers_and_mean_without_outliers rows = (0, 0, [])) := by
  constructor
  · intro rows hne h2
    have hie : ¬ ((rows.filter (fun r => r.movimientos < 0)).isEmpty = true) := by
      rw [List.isEmpty_iff]
      exact hne
    have habs : outflowAbs rows ≠ [] := by
      unfold outflowAbs
      simp only [ne_eq, List.map_eq_nil_iff]
      exact hne
    have hmain : (calculate_outliers_and_mean_without_outliers rows).1 =
        maxQ (outflowAbs rows) ∧
        (calculate_outliers_and_mean_without_outliers rows).2.1 =
          meanQ (outflowAbs rows) := by
      unfold outflowAbs at h2 ⊢
      simp only [calculate_outliers_and_mean_without_outliers]
      rw [if_neg hie, if_neg h2]
      exact ⟨rfl, rfl⟩
    refine ⟨hmain.1, ?_, ?_, hmain.2, ?_⟩
    · rw [hmain.1]
      exact maxQ_mem habs
    · intro x hx
      rw [hmain.1]
      exact le_maxQ hx
    · rw [hmain.2]
      exact meanQ_mul habs
  · intro rows hempty
    have hie : (rows.filter (fun r => r.movimientos < 0)).isEmpty = true := by
      rw [List.isEmpty_iff]
      exact hempty
    simp only [calculate_outliers_and_mean_without_outliers]
    rw [if_pos hie, hempty]

/-- C7 witness: a one-outflow window (value -7) and a window with only an
inflow row. -/
theorem C7_witness :
    ((calculate_outliers_and_mean_without_outliers [⟨"X", 1, "S", -7, 0, -7, 0⟩]).1 =
        maxQ (outflowAbs [⟨"X", 1, "S", -7, 0, -7, 0⟩]) ∧
      (calculate_outliers_and_mean_without_outliers [⟨"X", 1, "S", -7, 0, -7, 0⟩]).1 ∈
        outflowAbs [⟨"X", 1, "S", -7, 0, -7, 0⟩] ∧
      (∀ x ∈ outflowAbs [⟨"X", 1, "S", -7, 0, -7, 0⟩],
        x ≤ (calculate_outliers_and_mean_without_outliers
          [⟨"X", 1, "S", -7, 0, -7, 0⟩]).1) ∧
      (calculate_outliers_and_mean_without_outliers [⟨"X", 1, "S", -7, 0, -7, 0⟩]).2.1 =
        meanQ (outflowAbs [⟨"X", 1, "S", -7, 0, -7, 0⟩]) ∧
      (calculate_outliers_and_mean_without_outliers [⟨"X", 1, "S", -7, 0, -7, 0⟩]).2.1 *
        ((outflowAbs [⟨"X", 1, "S", -7, 0, -7, 0⟩]).length : ℚ) =
        (outflowAbs [⟨"X", 1, "S", -7, 0, -7, 0⟩]).sum) ∧
    calculate_outliers_and_mean_without_outliers [⟨"X", 1, "S", 4, 4, 0, 0⟩] =
      (0, 0, []) :=
  ⟨C7_degenerate_window.1 [⟨"X", 1, "S", -7, 0, -7, 0⟩]
      (by norm_num [List.filter]) (by norm_num [nunique, uniqueFirst, uniqueFirstAux,
        outflowAbs, List.filter]),
    C7_degenerate_window.2 [⟨"X", 1, "S", 4, 4, 0, 0⟩] (by norm_num [List.filter])⟩
